import Mathlib

/-!
# Verification of the GSC opportunity-analysis engine (`src/analyzer.py`)

Shallow embedding of the analyzer module of the `gsc-opps` repository.
Python floats are embedded as exact rationals (`ℚ`), Python non-negative
integer metrics as `ℕ`.  Python `round` (banker's rounding, ties to even)
and `int()` truncation are modelled explicitly.  Each detector is a pure
function of the row list fetched from the data layer (`db.get_aggregated_data`,
an external collaborator); the data fetch itself, which only selects which
rows flow in, is outside the embedded core.
-/

namespace GscOpps

/-- Python `round(x)`: round a rational to the nearest integer,
ties going to the even integer (banker's rounding).
(`Rat.floor` is used rather than `⌊·⌋` so that concrete instances
evaluate; `Rat.floor_def` identifies the two.) -/
def pyRound (q : ℚ) : ℤ :=
  let f : ℤ := q.floor
  let r : ℚ := q - f
  if r < 1/2 then f
  else if 1/2 < r then f + 1
  else if f % 2 = 0 then f else f + 1

/-- Python `round(x, n)`: round to `n` decimal digits, ties to even. -/
def pyRoundTo (q : ℚ) (n : ℕ) : ℚ :=
  (pyRound (q * ((10 ^ n : ℕ) : ℚ)) : ℚ) / ((10 ^ n : ℕ) : ℚ)

/-- Python `int(x)`: truncation toward zero. -/
def pyInt (q : ℚ) : ℤ := if q < 0 then q.ceil else q.floor

lemma ratFloor_eq_floor (q : ℚ) : q.floor = ⌊q⌋ := by
  rw [Rat.floor_def, Rat.floor_def']

/-- `AggregatedMetricRow`: one row returned by
`db.get_aggregated_data(site, start, end, group_by='query')`
(fields `query, page, total_clicks, total_impressions, avg_ctr, avg_position`). -/
structure Row where
  query : String
  page : String
  total_clicks : ℕ
  total_impressions : ℕ
  avg_ctr : ℚ
  avg_position : ℚ
deriving Repr, DecidableEq

/-- The benchmark dictionary `ctr_by_position` of `get_expected_ctr`
(`analyzer.py` lines 126-137), with the `.get(pos, 0.03)` default. -/
def ctr_by_position (pos : ℤ) : ℚ :=
  if pos = 1 then 32/100
  else if pos = 2 then 24/100
  else if pos = 3 then 18/100
  else if pos = 4 then 13/100
  else if pos = 5 then 10/100
  else if pos = 6 then 7/100
  else if pos = 7 then 6/100
  else if pos = 8 then 5/100
  else if pos = 9 then 4/100
  else if pos = 10 then 3/100
  else 3/100

/-- `get_expected_ctr(position)` (`analyzer.py` lines 121-145). -/
def get_expected_ctr (position : ℚ) : ℚ :=
  let pos := pyRound position
  if pos ≤ 0 then 32/100
  else if 10 < pos then 2/100
  else ctr_by_position pos

lemma get_expected_ctr_eq (q : ℚ) :
    get_expected_ctr q =
      if pyRound q ≤ 0 then 32/100
      else if 10 < pyRound q then 2/100
      else ctr_by_position (pyRound q) := rfl

lemma ctr_by_position_antitone {i j : ℤ} (h1 : 1 ≤ i) (hij : i ≤ j) (hj : j ≤ 10) :
    ctr_by_position j ≤ ctr_by_position i := by
  have h2 : i ≤ 10 := hij.trans hj
  have h3 : 1 ≤ j := h1.trans hij
  interval_cases i <;> interval_cases j <;> norm_num [ctr_by_position]

/-- **C1.** `get_expected_ctr` rounds its argument to the nearest integer
(ties to even, as Python `round`) and returns 0.32 when the rounded position
is ≤ 0, the benchmark-table value for rounded positions 1–10, and 0.02 when
the rounded position exceeds 10; over rounded positions 1–10 it is
monotonically non-increasing.  (Totality holds by construction: it is a
Lean function defined on all of `ℚ`.) -/
theorem expected_ctr_spec (q : ℚ) :
    (pyRound q ≤ 0 → get_expected_ctr q = 32/100) ∧
    (1 ≤ pyRound q → pyRound q ≤ 10 →
      get_expected_ctr q = ctr_by_position (pyRound q)) ∧
    (10 < pyRound q → get_expected_ctr q = 2/100) ∧
    (∀ q' : ℚ, 1 ≤ pyRound q → pyRound q ≤ pyRound q' → pyRound q' ≤ 10 →
      get_expected_ctr q' ≤ get_expected_ctr q) := by
  refine ⟨fun h => ?_, fun h1 h2 => ?_, fun h => ?_, fun q' h1 h2 h3 => ?_⟩
  · rw [get_expected_ctr_eq, if_pos h]
  · rw [get_expected_ctr_eq, if_neg (by omega), if_neg (by omega)]
  · rw [get_expected_ctr_eq, if_neg (by omega), if_pos h]
  · rw [get_expected_ctr_eq, get_expected_ctr_eq,
      if_neg (show ¬ pyRound q ≤ 0 by omega), if_neg (show ¬ 10 < pyRound q by omega),
      if_neg (show ¬ pyRound q' ≤ 0 by omega), if_neg (show ¬ 10 < pyRound q' by omega)]
    exact ctr_by_position_antitone h1 h2 h3

attribute [local semireducible] Rat.mul Rat.inv Rat.add Rat.sub in
/-- Witness for C1: concrete instantiations discharging each hypothesis. -/
theorem expected_ctr_spec_witness :
    get_expected_ctr (-3) = 32/100 ∧
    get_expected_ctr 2 = ctr_by_position (pyRound 2) ∧
    get_expected_ctr 12 = 2/100 ∧
    get_expected_ctr 9 ≤ get_expected_ctr 5 :=
  ⟨(expected_ctr_spec (-3)).1 (by decide),
   (expected_ctr_spec 2).2.1 (by decide) (by decide),
   (expected_ctr_spec 12).2.2.1 (by decide),
   (expected_ctr_spec 5).2.2.2 9 (by decide) (by decide) (by decide)⟩

/-! ## Quick-win detector -/

/-- One output record of `get_quick_wins` (`analyzer.py` lines 48-59). -/
structure QuickWinRec where
  query : String
  page : String
  position : ℚ
  impressions : ℕ
  clicks : ℕ
  ctr : ℚ
  priority_score : ℚ
  potential_clicks : ℤ
  click_uplift : ℤ
  opportunity_type : String
deriving Repr, DecidableEq

/-- The selection test of `get_quick_wins` (line 36):
`min_position <= position <= max_position and impressions >= min_impressions`. -/
def quickWinTest (min_position max_position : ℚ) (min_impressions : ℕ) (row : Row) : Bool :=
  decide (min_position ≤ row.avg_position) && decide (row.avg_position ≤ max_position) &&
    decide (min_impressions ≤ row.total_impressions)

/-- The record built for a selected row (lines 37-59). -/
def mkQuickWin (row : Row) : QuickWinRec :=
  let position := row.avg_position
  let impressions := row.total_impressions
  let priority_score : ℚ := if 0 < position then (impressions : ℚ) * (1 / position) else 0
  let potential_clicks : ℤ := pyInt ((impressions : ℚ) * (25/100))
  let current_clicks := row.total_clicks
  let click_uplift : ℤ := potential_clicks - (current_clicks : ℤ)
  { query := row.query
    page := row.page
    position := pyRoundTo position 1
    impressions := impressions
    clicks := current_clicks
    ctr := pyRoundTo (row.avg_ctr * 100) 2
    priority_score := pyRoundTo priority_score 2
    potential_clicks := potential_clicks
    click_uplift := max 0 click_uplift
    opportunity_type := "quick_win" }

/-- `get_quick_wins` (lines 13-64), as a function of the aggregated rows
fetched from the data layer.  The selecting loop is `filter` + `map`;
`list.sort(key=..., reverse=True)` is the stable descending merge sort. -/
def get_quick_wins (data : List Row) (min_position : ℚ := 4) (max_position : ℚ := 20)
    (min_impressions : ℕ := 100) (limit : ℕ := 100) : List QuickWinRec :=
  let quick_wins :=
    (data.filter (quickWinTest min_position max_position min_impressions)).map mkQuickWin
  (quick_wins.mergeSort (fun a b => decide (b.priority_score ≤ a.priority_score))).take limit

/-- Stable descending sort by a key into a linear order yields a list that is
pairwise non-increasing on the key. -/
lemma pairwise_mergeSort_desc {α β : Type} [LinearOrder β] (key : α → β) (l : List α) :
    (l.mergeSort (fun a b => decide (key b ≤ key a))).Pairwise (fun a b => key b ≤ key a) := by
  have h := @List.sorted_mergeSort _ (fun a b => decide (key b ≤ key a))
    (fun a b c hab hbc => by
      simp only [decide_eq_true_eq] at *
      exact hbc.trans hab)
    (fun a b => by
      simp only [Bool.or_eq_true, decide_eq_true_eq]
      exact le_total (key b) (key a)) l
  exact h.imp (by simp)

lemma pairwise_take {α : Type} {R : α → α → Prop} {l : List α} (n : ℕ)
    (h : l.Pairwise R) : (l.take n).Pairwise R :=
  h.sublist (List.take_sublist n l)

/-- The worked end-to-end example row of the specification. -/
def exampleRunningShoes : Row :=
  { query := "best running shoes", page := "/shoes", total_clicks := 50,
    total_impressions := 1000, avg_ctr := 1/20, avg_position := 8 }

lemma get_quick_wins_singleton (row : Row) (minP maxP : ℚ) (minImp limit : ℕ)
    (h : quickWinTest minP maxP minImp row = true) (hl : 1 ≤ limit) :
    get_quick_wins [row] minP maxP minImp limit = [mkQuickWin row] := by
  simp only [get_quick_wins, List.filter, h, List.map, List.mergeSort_singleton]
  exact List.take_of_length_le (by simpa using hl)

attribute [local semireducible] Rat.mul Rat.inv Rat.add Rat.sub in
/-- **C2 (amended).** Every record returned by `get_quick_wins` is the image
of an input row passing the thresholds; output is pairwise non-increasing on
the stored priority score; the stored `priority_score` is
`impressions/position` *rounded to two decimals* (Python `round(x, 2)`, the
correction the code forces); `potential_clicks = int(impressions*0.25)` and
`click_uplift = max(0, potential - current)`; and the spec's worked example
row yields priority 125.0, potential clicks 250, uplift 200. -/
theorem get_quick_wins_spec (data : List Row) (minP maxP : ℚ) (minImp limit : ℕ)
    (rec : QuickWinRec) (hrec : rec ∈ get_quick_wins data minP maxP minImp limit) :
    rec ∈ (data.filter (quickWinTest minP maxP minImp)).map mkQuickWin ∧
    (get_quick_wins data minP maxP minImp limit).Pairwise
      (fun a b => b.priority_score ≤ a.priority_score) ∧
    (∀ row : Row, 0 < row.avg_position →
      (mkQuickWin row).priority_score
          = pyRoundTo ((row.total_impressions : ℚ) / row.avg_position) 2 ∧
      (mkQuickWin row).potential_clicks = pyInt ((row.total_impressions : ℚ) * (25/100)) ∧
      (mkQuickWin row).click_uplift
          = max 0 ((mkQuickWin row).potential_clicks - (row.total_clicks : ℤ))) ∧
    (get_quick_wins [exampleRunningShoes]).map
        (fun r => (r.query, r.priority_score, r.potential_clicks, r.click_uplift))
      = [("best running shoes", 125, 250, 200)] := by
  refine ⟨?_, ?_, ?_, ?_⟩
  · exact List.mem_mergeSort.mp (List.take_subset _ _ hrec)
  · simp only [get_quick_wins]
    exact pairwise_take limit
      (pairwise_mergeSort_desc (fun r : QuickWinRec => r.priority_score)
        ((data.filter (quickWinTest minP maxP minImp)).map mkQuickWin))
  · intro row hpos
    refine ⟨?_, rfl, rfl⟩
    simp only [mkQuickWin, if_pos hpos, mul_one_div]
  · rw [get_quick_wins_singleton _ _ _ _ _ (by decide) (by norm_num)]
    decide

attribute [local semireducible] Rat.mul Rat.inv Rat.add Rat.sub in
/-- Witness for C2's theorem at the spec's worked example row. -/
theorem get_quick_wins_spec_witness :
    mkQuickWin exampleRunningShoes
        ∈ ([exampleRunningShoes].filter (quickWinTest 4 20 100)).map mkQuickWin ∧
    (mkQuickWin exampleRunningShoes).priority_score
        = pyRoundTo (((1000 : ℕ) : ℚ) / 8) 2 := by
  have hmem : mkQuickWin exampleRunningShoes ∈ get_quick_wins [exampleRunningShoes] 4 20 100 100 := by
    rw [get_quick_wins_singleton _ _ _ _ _ (by decide) (by norm_num)]
    exact List.mem_singleton_self _
  have H := get_quick_wins_spec [exampleRunningShoes] 4 20 100 100 _ hmem
  exact ⟨H.1, (H.2.2.1 exampleRunningShoes (by norm_num [exampleRunningShoes])).1⟩

/-- The input row of the C2 counterexample: position 7, 1000 impressions. -/
def quickWinCexRow : Row :=
  { query := "q", page := "/p", total_clicks := 50,
    total_impressions := 1000, avg_ctr := 1/20, avg_position := 7 }

attribute [local semireducible] Rat.mul Rat.inv Rat.add Rat.sub in
/-- **C2 counterexample.** For the row with `avg_position = 7`,
`total_impressions = 1000`, the returned `priority_score` is `142.86`
(rounded to two decimals), which differs from `impressions/position = 1000/7`:
the claim's exact equality `priority_score == impressions/position` fails. -/
theorem get_quick_wins_priority_score_cex :
    (get_quick_wins [quickWinCexRow]).map (fun r => r.priority_score) = [14286/100] ∧
    (14286/100 : ℚ) ≠ (quickWinCexRow.total_impressions : ℚ) / quickWinCexRow.avg_position := by
  constructor
  · rw [get_quick_wins_singleton _ _ _ _ _ (by decide) (by norm_num)]
    decide
  · decide

/-! ## CTR-gap detector -/

/-- One output record of `get_ctr_opportunities` (`analyzer.py` lines 100-113). -/
structure CtrOppRec where
  query : String
  page : String
  position : ℚ
  impressions : ℕ
  clicks : ℕ
  ctr : ℚ
  expected_ctr : ℚ
  ctr_gap : ℚ
  potential_clicks : ℤ
  click_uplift : ℤ
  opportunity_type : String
  priority : String
deriving Repr, DecidableEq

/-- The selection test of `get_ctr_opportunities` (line 90):
`position <= max_position and ctr < max_ctr and impressions >= min_impressions`. -/
def ctrOppTest (max_position max_ctr : ℚ) (min_impressions : ℕ) (row : Row) : Bool :=
  decide (row.avg_position ≤ max_position) && decide (row.avg_ctr < max_ctr) &&
    decide (min_impressions ≤ row.total_impressions)

/-- The record built for a selected row (lines 91-113). -/
def mkCtrOpp (row : Row) : CtrOppRec :=
  let position := row.avg_position
  let ctr := row.avg_ctr
  let impressions := row.total_impressions
  let expected_ctr := get_expected_ctr position
  let ctr_gap := expected_ctr - ctr
  let current_clicks := row.total_clicks
  let potential_clicks : ℤ := pyInt ((impressions : ℚ) * expected_ctr)
  let click_uplift : ℤ := potential_clicks - (current_clicks : ℤ)
  { query := row.query
    page := row.page
    position := pyRoundTo position 1
    impressions := impressions
    clicks := current_clicks
    ctr := pyRoundTo (ctr * 100) 2
    expected_ctr := pyRoundTo (expected_ctr * 100) 2
    ctr_gap := pyRoundTo (ctr_gap * 100) 2
    potential_clicks := potential_clicks
    click_uplift := max 0 click_uplift
    opportunity_type := "ctr_optimization"
    priority := if 15/100 < ctr_gap then "high" else if 10/100 < ctr_gap then "medium" else "low" }

/-- `get_ctr_opportunities` (lines 67-118), as a function of the fetched rows. -/
def get_ctr_opportunities (data : List Row) (max_position : ℚ := 3) (max_ctr : ℚ := 20/100)
    (min_impressions : ℕ := 50) (limit : ℕ := 100) : List CtrOppRec :=
  let opportunities :=
    (data.filter (ctrOppTest max_position max_ctr min_impressions)).map mkCtrOpp
  (opportunities.mergeSort (fun a b => decide (b.ctr_gap ≤ a.ctr_gap))).take limit

lemma get_ctr_opportunities_singleton (row : Row) (maxP maxCtr : ℚ) (minImp limit : ℕ)
    (h : ctrOppTest maxP maxCtr minImp row = true) (hl : 1 ≤ limit) :
    get_ctr_opportunities [row] maxP maxCtr minImp limit = [mkCtrOpp row] := by
  simp only [get_ctr_opportunities, List.filter, h, List.map, List.mergeSort_singleton]
  exact List.take_of_length_le (by simpa using hl)

/-- The input row of the C3 counterexample and worked example:
position 2, CTR 0.05, 200 impressions. -/
def ctrOppCexRow : Row :=
  { query := "q", page := "/p", total_clicks := 5,
    total_impressions := 200, avg_ctr := 1/20, avg_position := 2 }

attribute [local semireducible] Rat.mul Rat.inv Rat.add Rat.sub in
/-- **C3 (amended).** Soundness: every returned record is the image of an
input row passing the selection test; completeness up to the limit; output is
pairwise non-increasing on the stored `ctr_gap`; the stored `ctr_gap` is
`(expected_ctr(position) - avg_ctr) * 100` rounded to two decimals (percentage
points — the correction the code forces); the priority label is `high` iff the
raw gap exceeds 0.15, `medium` iff it lies in (0.10, 0.15], else `low`; and on
the worked example row `expected_ctr(2) = 0.24` with priority `high`. -/
theorem get_ctr_opportunities_spec (data : List Row) (maxP maxCtr : ℚ) (minImp limit : ℕ)
    (rec : CtrOppRec) (hrec : rec ∈ get_ctr_opportunities data maxP maxCtr minImp limit) :
    rec ∈ (data.filter (ctrOppTest maxP maxCtr minImp)).map mkCtrOpp ∧
    ((data.filter (ctrOppTest maxP maxCtr minImp)).length ≤ limit →
      ∀ row ∈ data, ctrOppTest maxP maxCtr minImp row = true →
        mkCtrOpp row ∈ get_ctr_opportunities data maxP maxCtr minImp limit) ∧
    (get_ctr_opportunities data maxP maxCtr minImp limit).Pairwise
      (fun a b => b.ctr_gap ≤ a.ctr_gap) ∧
    (∀ row : Row,
      (mkCtrOpp row).ctr_gap
          = pyRoundTo ((get_expected_ctr row.avg_position - row.avg_ctr) * 100) 2 ∧
      ((mkCtrOpp row).priority = "high"
          ↔ 15/100 < get_expected_ctr row.avg_position - row.avg_ctr) ∧
      ((mkCtrOpp row).priority = "medium"
          ↔ (10/100 < get_expected_ctr row.avg_position - row.avg_ctr ∧
             get_expected_ctr row.avg_position - row.avg_ctr ≤ 15/100)) ∧
      ((mkCtrOpp row).priority = "low"
          ↔ get_expected_ctr row.avg_position - row.avg_ctr ≤ 10/100)) ∧
    (get_expected_ctr 2 = 24/100 ∧
      (get_ctr_opportunities [ctrOppCexRow]).map (fun r => (r.priority, r.ctr_gap))
        = [("high", 19)]) := by
  refine ⟨?_, ?_, ?_, ?_, ?_, ?_⟩
  · exact List.mem_mergeSort.mp (List.take_subset _ _ hrec)
  · intro hlen row hrow htest
    simp only [get_ctr_opportunities]
    rw [List.take_of_length_le (by simpa using hlen)]
    exact List.mem_mergeSort.mpr (List.mem_map_of_mem _ (List.mem_filter.mpr ⟨hrow, htest⟩))
  · simp only [get_ctr_opportunities]
    exact pairwise_take limit
      (pairwise_mergeSort_desc (fun r : CtrOppRec => r.ctr_gap)
        ((data.filter (ctrOppTest maxP maxCtr minImp)).map mkCtrOpp))
  · intro row
    have e : (mkCtrOpp row).priority
        = (if 15/100 < get_expected_ctr row.avg_position - row.avg_ctr then "high"
           else if 10/100 < get_expected_ctr row.avg_position - row.avg_ctr then "medium"
           else "low") := rfl
    refine ⟨rfl, ?_, ?_, ?_⟩ <;> rw [e] <;> split_ifs with h1 h2 <;>
      simp_all <;> first
        | linarith
        | (intro h; linarith)
  · decide
  · rw [get_ctr_opportunities_singleton _ _ _ _ _ (by decide) (by norm_num)]
    decide

attribute [local semireducible] Rat.mul Rat.inv Rat.add Rat.sub in
/-- Witness for C3's theorem at the worked example row, discharging the
membership and completeness hypotheses concretely. -/
theorem get_ctr_opportunities_spec_witness :
    mkCtrOpp ctrOppCexRow ∈ ([ctrOppCexRow].filter (ctrOppTest 3 (20/100) 50)).map mkCtrOpp ∧
    mkCtrOpp ctrOppCexRow ∈ get_ctr_opportunities [ctrOppCexRow] := by
  have hmem : mkCtrOpp ctrOppCexRow ∈ get_ctr_opportunities [ctrOppCexRow] 3 (20/100) 50 100 := by
    rw [get_ctr_opportunities_singleton _ _ _ _ _ (by decide) (by norm_num)]
    exact List.mem_singleton_self _
  have H := get_ctr_opportunities_spec [ctrOppCexRow] 3 (20/100) 50 100 _ hmem
  exact ⟨H.1, H.2.1 (by decide) ctrOppCexRow (by decide) (by decide)⟩

attribute [local semireducible] Rat.mul Rat.inv Rat.add Rat.sub in
/-- **C3 counterexample.** For the worked example row the record's stored
`ctr_gap` is `19.0` (percentage points, rounded), not
`expected_ctr(position) - avg_ctr = 0.19`: the claim's equality
`ctr_gap == expected_ctr(position) - avg_ctr` fails on the code. -/
theorem get_ctr_opportunities_ctr_gap_cex :
    (get_ctr_opportunities [ctrOppCexRow]).map (fun r => r.ctr_gap) = [19] ∧
    (19 : ℚ) ≠ get_expected_ctr ctrOppCexRow.avg_position - ctrOppCexRow.avg_ctr := by
  constructor
  · rw [get_ctr_opportunities_singleton _ _ _ _ _ (by decide) (by norm_num)]
    decide
  · decide

/-! ## All-keywords browser -/

/-- Python `str.lower` on one character (ASCII regime). -/
def lowerChar (c : Char) : Char :=
  if 65 ≤ c.toNat ∧ c.toNat ≤ 90 then Char.ofNat (c.toNat + 32) else c

/-- Python `str.lower` (ASCII regime of the Unicode function). -/
def lowerStr (s : String) : String := ⟨s.data.map lowerChar⟩

/-- Python's substring test `needle in haystack`, for non-empty needles
(the only way the analyzer uses it: the search filter runs only under
`if search:`). -/
def strContains (haystack needle : String) : Bool :=
  (haystack.splitOn needle).length != 1

/-- One formatted row returned by `get_all_keywords` (lines 459-467). -/
structure FormattedRow where
  query : String
  page : String
  impressions : ℕ
  clicks : ℕ
  ctr : ℚ
  position : ℚ
deriving Repr, DecidableEq

/-- The search filter of `get_all_keywords` (lines 428-431); `search` is
`None` or a string, and the filter applies only when truthy (non-empty). -/
def filteredData (data : List Row) (search : Option String) : List Row :=
  match search with
  | some s =>
    if s ≠ "" then
      data.filter (fun row =>
        strContains (lowerStr row.query) (lowerStr s) ||
          strContains (lowerStr row.page) (lowerStr s))
    else data
  | none => data

/-- The sort-key table of `get_all_keywords` (lines 435-441), as a
less-or-equal comparison on the selected key (default key: impressions). -/
def keyLe (sort_by : String) (a b : Row) : Bool :=
  if sort_by = "impressions" then decide (a.total_impressions ≤ b.total_impressions)
  else if sort_by = "clicks" then decide (a.total_clicks ≤ b.total_clicks)
  else if sort_by = "ctr" then decide (a.avg_ctr ≤ b.avg_ctr)
  else if sort_by = "position" then decide (a.avg_position ≤ b.avg_position)
  else if sort_by = "query" then decide (lowerStr a.query ≤ lowerStr b.query)
  else decide (a.total_impressions ≤ b.total_impressions)

/-- The comparator realizing `data.sort(key=sort_key, reverse=reverse)`
(lines 434-447): `reverse = (sort_order == 'desc')`, inverted for the
`position` key. -/
def rowComparator (sort_by sort_order : String) : Row → Row → Bool :=
  let reverse : Bool := sort_order == "desc"
  let reverse : Bool := if sort_by == "position" then !reverse else reverse
  fun a b => if reverse then keyLe sort_by b a else keyLe sort_by a b

/-- The filtered and sorted working list of `get_all_keywords`. -/
def sortedData (data : List Row) (search : Option String) (sort_by sort_order : String) :
    List Row :=
  (filteredData data search).mergeSort (rowComparator sort_by sort_order)

/-- The output formatting (lines 459-467). -/
def formatRow (row : Row) : FormattedRow :=
  { query := row.query
    page := row.page
    impressions := row.total_impressions
    clicks := row.total_clicks
    ctr := pyRoundTo (row.avg_ctr * 100) 2
    position := pyRoundTo row.avg_position 1 }

/-- `get_all_keywords` (lines 411-469): returns
`(page slice, total_count, total_pages)`.  Pages are 1-based, as in the
spec's contract (for `page = 0` Python's negative slice indices would apply;
that regime is outside every claim). -/
def get_all_keywords (data : List Row) (search : Option String := none)
    (sort_by : String := "impressions") (sort_order : String := "desc")
    (page : ℕ := 1) (per_page : ℕ := 50) : List FormattedRow × ℕ × ℕ :=
  let d := sortedData data search sort_by sort_order
  let total_count := d.length
  let total_pages := (total_count + per_page - 1) / per_page
  let start_idx := (page - 1) * per_page
  let paginated_data := (d.drop start_idx).take per_page
  (paginated_data.map formatRow, total_count, total_pages)

/-- The content of the caller-visible fetched list after `get_all_keywords`
returns.  With a truthy search the code rebinds `data` to a fresh filtered
list (line 430) and later sorts that, leaving the fetched list untouched;
otherwise `data.sort(...)` (line 447) sorts the fetched list itself in
place. -/
def get_all_keywords_data_after (data : List Row) (search : Option String := none)
    (sort_by : String := "impressions") (sort_order : String := "desc") : List Row :=
  match search with
  | some s =>
    if s ≠ "" then data else data.mergeSort (rowComparator sort_by sort_order)
  | none => data.mergeSort (rowComparator sort_by sort_order)

lemma join_chunks {α : Type} :
    ∀ (k : ℕ) (l : List α) (p : ℕ), 0 < p → l.length ≤ k * p →
      ((List.range k).map (fun i => (l.drop (i * p)).take p)).flatten = l := by
  intro k
  induction k with
  | zero =>
    intro l p hp hl
    simp only [Nat.zero_mul, Nat.le_zero] at hl
    simp [List.length_eq_zero.mp hl]
  | succ k ih =>
    intro l p hp hl
    rw [List.range_succ_eq_map]
    simp only [List.map_cons, List.map_map, List.flatten_cons, Nat.zero_mul, List.drop_zero]
    have hrest : ∀ i : ℕ,
        (l.drop ((i + 1) * p)).take p = ((l.drop p).drop (i * p)).take p := by
      intro i
      rw [List.drop_drop]
      congr 1
      ring
    have hmap : (List.range k).map ((fun i => (l.drop (i * p)).take p) ∘ (· + 1))
        = (List.range k).map (fun i => ((l.drop p).drop (i * p)).take p) := by
      refine List.map_congr_left (fun i _ => ?_)
      simpa using hrest i
    have hlen' : (l.drop p).length ≤ k * p := by
      have e : (k + 1) * p = k * p + p := by ring
      simp only [List.length_drop]
      omega
    rw [hmap, ih (l.drop p) p hp hlen']
    exact List.take_append_drop p l

lemma nat_ceilDiv_eq (n p : ℕ) (hp : 0 < p) :
    (((n + p - 1) / p : ℕ) : ℤ) = ⌈(n : ℚ) / (p : ℚ)⌉ := by
  set q : ℕ := (n + p - 1) / p with hq
  set r : ℕ := (n + p - 1) % p with hr
  have hdm : p * q + r = n + p - 1 := Nat.div_add_mod _ _
  have hml : r < p := Nat.mod_lt _ hp
  have hqp : p * q = q * p := Nat.mul_comm _ _
  have h1 : n ≤ q * p := by omega
  have h2 : q * p < n + p := by omega
  have hp' : (0 : ℚ) < (p : ℚ) := by exact_mod_cast hp
  have h1' : (n : ℚ) ≤ (q : ℚ) * p := by exact_mod_cast h1
  have h2' : (q : ℚ) * p < (n : ℚ) + p := by exact_mod_cast h2
  symm
  rw [Int.ceil_eq_iff]
  push_cast
  constructor
  · rw [lt_div_iff₀ hp']
    have e : ((q : ℚ) - 1) * p = (q : ℚ) * p - p := by ring
    rw [e]
    linarith
  · rw [div_le_iff₀ hp']
    linarith

/-- **C8.** `get_all_keywords` reports `total_count` as the size of the
filtered set and `total_pages = ceil(total_count / per_page)`, and the
page slices for pages `1 .. total_pages` concatenate to exactly the full
filtered, sorted, formatted row list — no duplicates, no omissions. -/
theorem get_all_keywords_pagination (data : List Row) (search : Option String)
    (sort_by sort_order : String) (per_page : ℕ) (hpp : 0 < per_page) :
    (∀ page : ℕ,
      (get_all_keywords data search sort_by sort_order page per_page).2.1
          = (filteredData data search).length ∧
      (get_all_keywords data search sort_by sort_order page per_page).2.2
          = ((filteredData data search).length + per_page - 1) / per_page) ∧
    ((((filteredData data search).length + per_page - 1) / per_page : ℕ) : ℤ)
        = ⌈((filteredData data search).length : ℚ) / (per_page : ℚ)⌉ ∧
    ((List.range ((get_all_keywords data search sort_by sort_order 1 per_page).2.2)).map
        (fun i => (get_all_keywords data search sort_by sort_order (i + 1) per_page).1)).flatten
      = (sortedData data search sort_by sort_order).map formatRow := by
  have hlen : (sortedData data search sort_by sort_order).length
      = (filteredData data search).length := by
    simp [sortedData]
  refine ⟨fun page => ⟨by simp [get_all_keywords, hlen], by simp [get_all_keywords, hlen]⟩,
    nat_ceilDiv_eq _ _ hpp, ?_⟩
  set d := sortedData data search sort_by sort_order with hd
  set tp := (d.length + per_page - 1) / per_page with htp
  have htp' : (get_all_keywords data search sort_by sort_order 1 per_page).2.2 = tp := by
    simp [get_all_keywords, htp]
  rw [htp']
  have hslice : ∀ i : ℕ,
      (get_all_keywords data search sort_by sort_order (i + 1) per_page).1
        = ((d.drop (i * per_page)).take per_page).map formatRow := by
    intro i
    simp [get_all_keywords, hd]
  have hcover : d.length ≤ tp * per_page := by
    have hdm : per_page * tp + (d.length + per_page - 1) % per_page
        = d.length + per_page - 1 := Nat.div_add_mod _ _
    have hml : (d.length + per_page - 1) % per_page < per_page := Nat.mod_lt _ hpp
    have hc : per_page * tp = tp * per_page := Nat.mul_comm _ _
    omega
  calc ((List.range tp).map
          (fun i => (get_all_keywords data search sort_by sort_order (i + 1) per_page).1)).flatten
      = ((List.range tp).map
          (fun i => ((d.drop (i * per_page)).take per_page).map formatRow)).flatten := by
        exact congrArg _ (List.map_congr_left (fun i _ => hslice i))
    _ = (((List.range tp).map (fun i => (d.drop (i * per_page)).take per_page)).flatten).map
          formatRow := by
        rw [List.map_flatten, List.map_map]
        rfl
    _ = d.map formatRow := by
        rw [join_chunks tp d per_page hpp hcover]

/-- Witness for C8 at a concrete input with `per_page = 1`. -/
theorem get_all_keywords_pagination_witness :
    (get_all_keywords [exampleRunningShoes] none "impressions" "desc" 3 1).2.1
        = (filteredData [exampleRunningShoes] none).length ∧
    (get_all_keywords [exampleRunningShoes] none "impressions" "desc" 3 1).2.2
        = ((filteredData [exampleRunningShoes] none).length + 1 - 1) / 1 :=
  (get_all_keywords_pagination [exampleRunningShoes] none "impressions" "desc" 1
    (by norm_num)).1 3

/-- Two rows that are out of order for the default sort (impressions
descending): the fetched list gets reordered in place. -/
def mutCexRow1 : Row :=
  { query := "a", page := "/a", total_clicks := 0,
    total_impressions := 1, avg_ctr := 0, avg_position := 1 }

/-- Second row of the C9 counterexample. -/
def mutCexRow2 : Row :=
  { query := "b", page := "/b", total_clicks := 0,
    total_impressions := 2, avg_ctr := 0, avg_position := 1 }

/-- **C9 counterexample.** Calling `get_all_keywords` with no search term
sorts the fetched row list in place (`data.sort(...)`, line 447): after the
call the list `[mutCexRow1, mutCexRow2]` (impressions 1, 2) is no longer in
its original order, refuting "after any detector call the input rows are
unchanged in content and order". -/
theorem get_all_keywords_mutates_cex :
    get_all_keywords_data_after [mutCexRow1, mutCexRow2] ≠ [mutCexRow1, mutCexRow2] := by
  intro h
  have he : get_all_keywords_data_after [mutCexRow1, mutCexRow2]
      = [mutCexRow1, mutCexRow2].mergeSort
          (fun a b => decide (b.total_impressions ≤ a.total_impressions)) := rfl
  have hpw := pairwise_mergeSort_desc (fun r : Row => r.total_impressions)
    [mutCexRow1, mutCexRow2]
  rw [← he, h] at hpw
  have h12 := List.rel_of_pairwise_cons hpw (List.mem_singleton_self _)
  simp [mutCexRow1, mutCexRow2] at h12

/-- **C9 (amended).** Every detector's output depends only on its fetched
row lists and parameters (all are plain functions in this model, mirroring
that the code keeps no mutable state between calls), and no detector
modifies any row record;  however `get_all_keywords` sorts its fetched list
in place, so after a call with a falsy search the caller-visible list is the
sorted permutation of what was fetched, while with a truthy (non-empty)
search the fetched list is left untouched.  No other detector touches its
fetched list. -/
theorem detectors_input_preservation (data : List Row) (search : Option String)
    (sort_by sort_order : String) :
    (get_all_keywords_data_after data search sort_by sort_order).Perm data ∧
    (∀ s, search = some s → s ≠ "" →
      get_all_keywords_data_after data search sort_by sort_order = data) := by
  constructor
  · cases search with
    | none => exact List.mergeSort_perm _ _
    | some s =>
      by_cases hs : s = ""
      · simp only [get_all_keywords_data_after, hs, ne_eq, not_true_eq_false, if_false]
        exact List.mergeSort_perm _ _
      · simp only [get_all_keywords_data_after, ne_eq, hs, not_false_eq_true, if_true]
        exact List.Perm.refl _
  · intro s hs hne
    subst hs
    simp only [get_all_keywords_data_after, ne_eq, hne, not_false_eq_true, if_true]

/-- Witness for C9's amended theorem: with search `"a"` the fetched list is
returned untouched. -/
theorem detectors_input_preservation_witness :
    get_all_keywords_data_after [mutCexRow1, mutCexRow2] (some "a") "impressions" "desc"
      = [mutCexRow1, mutCexRow2] :=
  (detectors_input_preservation [mutCexRow1, mutCexRow2] (some "a") "impressions" "desc").2
    "a" rfl (by decide)

/-! ## Declining-keyword detector -/

/-- One output record of `get_declining_keywords` (lines 387-403). -/
structure DecliningRec where
  query : String
  page : String
  previous_clicks : ℕ
  current_clicks : ℕ
  decline : ℤ
  decline_percent : ℚ
  previous_position : ℚ
  current_position : ℚ
  position_change : ℚ
  previous_impressions : ℕ
  current_impressions : ℕ
  opportunity_type : String
  priority : String
deriving Repr, DecidableEq

/-- `decline / prev_clicks * 100 if prev_clicks > 0 else 0` (line 384). -/
def declinePercent (prev curr : ℕ) : ℚ :=
  if 0 < prev then ((prev : ℚ) - (curr : ℚ)) / (prev : ℚ) * 100 else 0

/-- `previous_lookup` (lines 368-371): a dict comprehension keyed on
`(query, page)`; later rows overwrite earlier ones, so lookup yields the
last matching row. -/
def previousLookup (previous_data : List Row) (q p : String) : Option Row :=
  previous_data.reverse.find? (fun r => r.query == q && r.page == p)

/-- The record built for a declining `(recent row, previous row)` pair. -/
def mkDeclining (row prev : Row) : DecliningRec :=
  let prev_clicks := prev.total_clicks
  let curr_clicks := row.total_clicks
  let decline : ℤ := (prev_clicks : ℤ) - (curr_clicks : ℤ)
  let decline_percent := declinePercent prev_clicks curr_clicks
  { query := row.query
    page := row.page
    previous_clicks := prev_clicks
    current_clicks := curr_clicks
    decline := decline
    decline_percent := pyRoundTo decline_percent 1
    previous_position := pyRoundTo prev.avg_position 1
    current_position := pyRoundTo row.avg_position 1
    position_change := pyRoundTo (row.avg_position - prev.avg_position) 1
    previous_impressions := prev.total_impressions
    current_impressions := row.total_impressions
    opportunity_type := "declining"
    priority := if 50 ≤ decline_percent then "high" else "medium" }

/-- `get_declining_keywords` (lines 331-408), as a function of the two
fetched window row lists.  The two 30-day windows are computed from the wall
clock and fetched through the data layer (an external collaborator); the
embedded core is the join/filter/sort on the fetched lists. -/
def get_declining_keywords (recent_data previous_data : List Row)
    (min_previous_clicks : ℕ := 50) (min_decline_percent : ℚ := 30) (limit : ℕ := 100) :
    List DecliningRec :=
  let declining := recent_data.filterMap (fun row =>
    match previousLookup previous_data row.query row.page with
    | none => none
    | some prev =>
      if min_previous_clicks ≤ prev.total_clicks then
        if min_decline_percent ≤ declinePercent prev.total_clicks row.total_clicks then
          some (mkDeclining row prev)
        else none
      else none)
  (declining.mergeSort (fun a b => decide (b.decline ≤ a.decline))).take limit

/-- **C5.** Every record returned by the declining-keyword detector stems
from a `(query, page)` pair present in *both* windows (pairs present in only
one window never appear); its previous-window clicks meet
`min_previous_clicks`; its decline percentage (recomputed exactly from the
record's raw click counts) meets `min_decline_percent`; and the output is
pairwise non-increasing on the absolute click decline. -/
theorem get_declining_keywords_spec (recent previous : List Row) (minPrev : ℕ)
    (minDecl : ℚ) (limit : ℕ) (rec : DecliningRec)
    (hrec : rec ∈ get_declining_keywords recent previous minPrev minDecl limit) :
    (rec.query, rec.page) ∈ recent.map (fun r => (r.query, r.page)) ∧
    (rec.query, rec.page) ∈ previous.map (fun r => (r.query, r.page)) ∧
    minPrev ≤ rec.previous_clicks ∧
    minDecl ≤ declinePercent rec.previous_clicks rec.current_clicks ∧
    (get_declining_keywords recent previous minPrev minDecl limit).Pairwise
      (fun a b => b.decline ≤ a.decline) := by
  have hmem := List.mem_mergeSort.mp (List.take_subset _ _ hrec)
  obtain ⟨row, hrow, hf⟩ := List.mem_filterMap.mp hmem
  obtain ⟨prev, hlook⟩ : ∃ prev, previousLookup previous row.query row.page = some prev := by
    cases hl : previousLookup previous row.query row.page with
    | none => rw [hl] at hf; exact absurd hf (by simp)
    | some prev => exact ⟨prev, rfl⟩
  rw [hlook] at hf
  dsimp only at hf
  by_cases h1 : minPrev ≤ prev.total_clicks
  case neg => rw [if_neg h1] at hf; exact absurd hf (by simp)
  rw [if_pos h1] at hf
  by_cases h2 : minDecl ≤ declinePercent prev.total_clicks row.total_clicks
  case neg => rw [if_neg h2] at hf; exact absurd hf (by simp)
  rw [if_pos h2] at hf
  have hrec_eq : rec = mkDeclining row prev := by
    have := Option.some.inj hf
    exact this.symm
  have hprev_mem : prev ∈ previous := by
    have := List.mem_of_find?_eq_some hlook
    exact List.mem_reverse.mp this
  have hpred := List.find?_some hlook
  have hq : prev.query = row.query := by
    have := (Bool.and_eq_true _ _).mp hpred
    exact eq_of_beq this.1
  have hp : prev.page = row.page := by
    have := (Bool.and_eq_true _ _).mp hpred
    exact eq_of_beq this.2
  subst hrec_eq
  refine ⟨?_, ?_, h1, h2, ?_⟩
  · exact List.mem_map_of_mem _ hrow
  · have : ((mkDeclining row prev).query, (mkDeclining row prev).page)
        = (prev.query, prev.page) := by
      simp [mkDeclining, hq, hp]
    rw [this]
    exact List.mem_map_of_mem _ hprev_mem
  · simp only [get_declining_keywords]
    exact pairwise_take limit
      (pairwise_mergeSort_desc (fun r : DecliningRec => r.decline) _)

/-- Recent-window row of the C5 witness: clicks fell from 100 to 20. -/
def declWitnessRecent : Row :=
  { query := "kw", page := "/p", total_clicks := 20,
    total_impressions := 100, avg_ctr := 1/5, avg_position := 5 }

/-- Previous-window row of the C5 witness. -/
def declWitnessPrev : Row :=
  { query := "kw", page := "/p", total_clicks := 100,
    total_impressions := 500, avg_ctr := 1/5, avg_position := 2 }

lemma get_declining_keywords_single (row prev : Row) (minPrev : ℕ) (minDecl : ℚ)
    (limit : ℕ) (h1 : (prev.query == row.query && prev.page == row.page) = true)
    (h2 : minPrev ≤ prev.total_clicks)
    (h3 : minDecl ≤ declinePercent prev.total_clicks row.total_clicks)
    (h4 : 1 ≤ limit) :
    get_declining_keywords [row] [prev] minPrev minDecl limit = [mkDeclining row prev] := by
  have hl : previousLookup [prev] row.query row.page = some prev := by
    simp only [previousLookup, List.reverse_singleton, List.find?_cons, h1]
  simp only [get_declining_keywords, List.filterMap_cons, hl, if_pos h2, if_pos h3,
    List.filterMap_nil, List.mergeSort_singleton]
  exact List.take_of_length_le (by simpa using h4)

attribute [local semireducible] Rat.mul Rat.inv Rat.add Rat.sub in
/-- Witness for C5 at a concrete declining pair (100 → 20 clicks, an 80%
decline), discharging every hypothesis concretely. -/
theorem get_declining_keywords_spec_witness :
    ((mkDeclining declWitnessRecent declWitnessPrev).query,
        (mkDeclining declWitnessRecent declWitnessPrev).page)
      ∈ [declWitnessRecent].map (fun r => (r.query, r.page)) ∧
    (50 : ℕ) ≤ (mkDeclining declWitnessRecent declWitnessPrev).previous_clicks := by
  have hrec : mkDeclining declWitnessRecent declWitnessPrev
      ∈ get_declining_keywords [declWitnessRecent] [declWitnessPrev] := by
    rw [get_declining_keywords_single _ _ _ _ _ (by decide) (by decide) (by decide)
      (by norm_num)]
    exact List.mem_singleton_self _
  have H := get_declining_keywords_spec [declWitnessRecent] [declWitnessPrev] 50 30 100 _ hrec
  exact ⟨H.1, H.2.2.1⟩

/-! ## Expansion-candidate detector -/

/-- Per-keyword detail appended for each row (lines 179-184). -/
structure KeywordDetail where
  query : String
  impressions : ℕ
  clicks : ℕ
  position : ℚ
deriving Repr, DecidableEq

/-- The per-page accumulator of `get_pages_to_expand` (lines 162-168). -/
structure PageAcc where
  keywords : List String
  total_clicks : ℕ
  total_impressions : ℕ
  positions : List ℚ
  keyword_details : List KeywordDetail
deriving Repr, DecidableEq

/-- The `defaultdict` default of `get_pages_to_expand`. -/
def emptyPageAcc : PageAcc :=
  { keywords := [], total_clicks := 0, total_impressions := 0,
    positions := [], keyword_details := [] }

/-- Ordered-dict upsert: Python dicts keep first-insertion order and update an
existing key in place. -/
def upsert {β : Type} (acc : List (String × β)) (k : String) (d : β) (f : β → β) :
    List (String × β) :=
  if acc.any (fun e => e.1 == k) then
    acc.map (fun e => if e.1 == k then (e.1, f e.2) else e)
  else acc ++ [(k, f d)]

/-- One iteration of the grouping loop of `get_pages_to_expand`
(lines 170-184): rows with an empty page are skipped. -/
def pageStep (acc : List (String × PageAcc)) (row : Row) : List (String × PageAcc) :=
  if row.page = "" then acc
  else
    upsert acc row.page emptyPageAcc (fun a =>
      { keywords := a.keywords ++ [row.query]
        total_clicks := a.total_clicks + row.total_clicks
        total_impressions := a.total_impressions + row.total_impressions
        positions := a.positions ++ [row.avg_position]
        keyword_details := a.keyword_details ++
          [{ query := row.query, impressions := row.total_impressions,
             clicks := row.total_clicks, position := pyRoundTo row.avg_position 1 }] })

/-- The `page_data` grouping of `get_pages_to_expand`. -/
def pageGroups (data : List Row) : List (String × PageAcc) := data.foldl pageStep []

/-- One output record of `get_pages_to_expand` (lines 202-211). -/
structure ExpandRec where
  page : String
  keyword_count : ℕ
  total_clicks : ℕ
  total_impressions : ℕ
  avg_position : ℚ
  top_keywords : List KeywordDetail
  opportunity_type : String
  priority : String
deriving Repr, DecidableEq

/-- The record built for a kept page (lines 190-211). -/
def mkExpand (page : String) (a : PageAcc) : ExpandRec :=
  let keyword_count := a.keywords.length
  let avg_position : ℚ :=
    if a.positions ≠ [] then a.positions.sum / (a.positions.length : ℚ) else 0
  let top_keywords :=
    (a.keyword_details.mergeSort (fun x y => decide (y.impressions ≤ x.impressions))).take 10
  { page := page
    keyword_count := keyword_count
    total_clicks := a.total_clicks
    total_impressions := a.total_impressions
    avg_position := pyRoundTo avg_position 1
    top_keywords := top_keywords
    opportunity_type := "expand_content"
    priority := if 20 ≤ keyword_count then "high"
      else if 10 ≤ keyword_count then "medium" else "low" }

/-- `get_pages_to_expand` (lines 148-216), as a function of the fetched rows. -/
def get_pages_to_expand (data : List Row) (min_keywords : ℕ := 5) (limit : ℕ := 100) :
    List ExpandRec :=
  let pages_to_expand :=
    ((pageGroups data).filter (fun e => decide (min_keywords ≤ e.2.keywords.length))).map
      (fun e => mkExpand e.1 e.2)
  (pages_to_expand.mergeSort (fun a b => decide (b.keyword_count ≤ a.keyword_count))).take limit

/-- The rows of `data` grouped under page `p`. -/
def pageRowsOf (data : List Row) (p : String) : List Row :=
  data.filter (fun r => r.page == p)

/-- What one entry of the page grouping holds after processing `done`. -/
def PageAccInv (done : List Row) (e : String × PageAcc) : Prop :=
  e.1 ≠ "" ∧
  e.2.keywords = (pageRowsOf done e.1).map (fun r => r.query) ∧
  e.2.positions = (pageRowsOf done e.1).map (fun r => r.avg_position) ∧
  e.2.total_clicks = ((pageRowsOf done e.1).map (fun r => r.total_clicks)).sum ∧
  e.2.total_impressions = ((pageRowsOf done e.1).map (fun r => r.total_impressions)).sum

lemma pageRowsOf_append_one (done : List Row) (r : Row) (p : String) :
    pageRowsOf (done ++ [r]) p
      = pageRowsOf done p ++ (if r.page == p then [r] else []) := by
  simp only [pageRowsOf, List.filter_append, List.filter]
  cases h : r.page == p <;> simp

/-- Where an element of `upsert acc k d f` comes from: an untouched entry of
`acc` with a different key, an updated entry of `acc` with key `k`, or the
freshly appended entry when `k` was absent. -/
lemma mem_upsert {β : Type} {acc : List (String × β)} {k : String} {d : β} {f : β → β}
    {e' : String × β} (h : e' ∈ upsert acc k d f) :
    (∃ e ∈ acc, (e.1 == k) = false ∧ e' = e) ∨
    (∃ e ∈ acc, (e.1 == k) = true ∧ e' = (e.1, f e.2)) ∨
    (e' = (k, f d) ∧ ∀ e ∈ acc, (e.1 == k) = false) := by
  rw [upsert] at h
  by_cases hpresent : acc.any (fun e => e.1 == k)
  · rw [if_pos hpresent] at h
    obtain ⟨e, he, hee⟩ := List.mem_map.mp h
    by_cases hk : (e.1 == k) = true
    · rw [if_pos hk] at hee
      exact Or.inr (Or.inl ⟨e, he, hk, hee.symm⟩)
    · rw [if_neg hk] at hee
      exact Or.inl ⟨e, he, Bool.not_eq_true _ ▸ hk, hee.symm⟩
  · rw [if_neg hpresent] at h
    rcases List.mem_append.mp h with h' | h'
    · have habs : ∀ e ∈ acc, (e.1 == k) = false := by
        intro e he
        by_contra hx
        exact hpresent (List.any_eq_true.mpr ⟨e, he, by simpa using hx⟩)
      exact Or.inl ⟨e', h', habs e' h', rfl⟩
    · refine Or.inr (Or.inr ⟨List.mem_singleton.mp h', ?_⟩)
      intro e he
      by_contra hx
      exact hpresent (List.any_eq_true.mpr ⟨e, he, by simpa using hx⟩)

/-- Keys present before an upsert, and the upserted key, are present after. -/
lemma upsert_exists_key {β : Type} (acc : List (String × β)) (k : String) (d : β)
    (f : β → β) (p : String) (hp : (∃ e ∈ acc, e.1 = p) ∨ p = k) :
    ∃ e' ∈ upsert acc k d f, e'.1 = p := by
  rw [upsert]
  by_cases hpresent : acc.any (fun e => e.1 == k)
  · rw [if_pos hpresent]
    rcases hp with ⟨e, he, hep⟩ | rfl
    · refine ⟨_, List.mem_map_of_mem _ he, ?_⟩
      by_cases hk : (e.1 == k) = true <;> simp [hk] <;> exact hep
    · obtain ⟨e, he, hek⟩ := List.any_eq_true.mp hpresent
      have hek2 : (e.1 == p) = true := by simpa using hek
      refine ⟨(e.1, f e.2), ?_, eq_of_beq hek2⟩
      have hrepr : (e.1, f e.2)
          = (fun e0 : String × β => if e0.1 == p then (e0.1, f e0.2) else e0) e := by
        simp [hek2]
      rw [hrepr]
      exact List.mem_map_of_mem _ he
  · rw [if_neg hpresent]
    rcases hp with ⟨e, he, hep⟩ | rfl
    · exact ⟨e, List.mem_append_left _ he, hep⟩
    · exact ⟨(p, f d), List.mem_append_right _ (List.mem_singleton_self _), rfl⟩

lemma pageStep_inv {done : List Row} {acc : List (String × PageAcc)} (r : Row)
    (h1 : ∀ e ∈ acc, PageAccInv done e)
    (h2 : ∀ r' ∈ done, r'.page ≠ "" → ∃ e ∈ acc, e.1 = r'.page) :
    (∀ e ∈ pageStep acc r, PageAccInv (done ++ [r]) e) ∧
    (∀ r' ∈ done ++ [r], r'.page ≠ "" → ∃ e ∈ pageStep acc r, e.1 = r'.page) := by
  have hkeep : ∀ e : String × PageAcc, e.1 ≠ r.page → PageAccInv done e →
      PageAccInv (done ++ [r]) e := by
    rintro e hne ⟨ha, hb, hc, hd, he⟩
    have hif : (r.page == e.1) = false := by
      simp only [beq_eq_false_iff_ne, ne_eq]
      exact fun h => hne h.symm
    refine ⟨ha, ?_, ?_, ?_, ?_⟩ <;>
      rw [pageRowsOf_append_one, hif] <;> simp [hb, hc, hd, he]
  by_cases hemp : r.page = ""
  · rw [pageStep, if_pos hemp]
    refine ⟨?_, ?_⟩
    · intro e he
      exact hkeep e (fun h => (h1 e he).1 (h ▸ hemp)) (h1 e he)
    · intro r' hr' hne
      rcases List.mem_append.mp hr' with h | h
      · exact h2 r' h hne
      · rw [List.mem_singleton.mp h] at hne
        exact absurd hemp hne
  · rw [pageStep, if_neg hemp]
    constructor
    · intro e' he'
      rcases mem_upsert he' with ⟨e, he, hk, hee⟩ | ⟨e, he, hk, hee⟩ | ⟨rfl, habs⟩
      · subst hee
        exact hkeep e' (by simpa using hk) (h1 e' he)
      · subst hee
        have hkey : e.1 = r.page := eq_of_beq hk
        obtain ⟨ha, hb, hc, hd, he5⟩ := h1 e he
        have hif : (r.page == e.1) = true := by simp [hkey]
        refine ⟨ha, ?_, ?_, ?_, ?_⟩ <;>
          simp only [pageRowsOf_append_one, hif, if_true] <;>
          simp [hb, hc, hd, he5]
      · have hnil : pageRowsOf done r.page = [] := by
          rcases hx : pageRowsOf done r.page with _ | ⟨r0, rest⟩
          · rfl
          · exfalso
            have hr0 : r0 ∈ pageRowsOf done r.page := by rw [hx]; exact List.mem_cons_self _ _
            have hr0d : r0 ∈ done := List.mem_of_mem_filter hr0
            have hr0p : r0.page = r.page := by
              have := List.of_mem_filter hr0
              simpa using this
            obtain ⟨e, he, hee⟩ := h2 r0 hr0d (hr0p ▸ hemp)
            have := habs e he
            rw [hee, hr0p] at this
            simp at this
        have hif : (r.page == r.page) = true := by simp
        refine ⟨hemp, ?_, ?_, ?_, ?_⟩ <;>
          simp only [pageRowsOf_append_one, hif, if_true, hnil] <;>
          simp [emptyPageAcc]
    · intro r' hr' hne
      rcases List.mem_append.mp hr' with h | h
      · exact upsert_exists_key _ _ _ _ _ (Or.inl (h2 r' h hne))
      · rw [List.mem_singleton.mp h]
        exact upsert_exists_key _ _ _ _ _ (Or.inr rfl)

lemma pageGroups_inv (data : List Row) :
    (∀ e ∈ pageGroups data, PageAccInv data e) ∧
    (∀ r ∈ data, r.page ≠ "" → ∃ e ∈ pageGroups data, e.1 = r.page) := by
  suffices h : ∀ (rest done : List Row) (acc : List (String × PageAcc)),
      (∀ e ∈ acc, PageAccInv done e) →
      (∀ r' ∈ done, r'.page ≠ "" → ∃ e ∈ acc, e.1 = r'.page) →
      (∀ e ∈ rest.foldl pageStep acc, PageAccInv (done ++ rest) e) ∧
      (∀ r' ∈ done ++ rest, r'.page ≠ "" → ∃ e ∈ rest.foldl pageStep acc, e.1 = r'.page) by
    have h0 := h data [] [] (by simp) (by simp)
    rw [List.nil_append] at h0
    exact h0
  intro rest
  induction rest with
  | nil =>
    intro done acc ha hb
    rw [List.foldl_nil, List.append_nil]
    exact ⟨ha, hb⟩
  | cons r rest ih =>
    intro done acc ha hb
    have hstep := pageStep_inv r ha hb
    have hrec := ih (done ++ [r]) (pageStep acc r) hstep.1 hstep.2
    rw [List.append_assoc, List.singleton_append] at hrec
    rw [List.foldl_cons]
    exact hrec

lemma nodup_queries_of_page (data : List Row) (p : String)
    (hnd : (data.map (fun r => (r.query, r.page))).Nodup) :
    ((pageRowsOf data p).map (fun r => r.query)).Nodup := by
  have hsub : List.Sublist (pageRowsOf data p) data := List.filter_sublist data
  have h2 : ((pageRowsOf data p).map (fun r => (r.query, r.page))).Nodup :=
    List.Nodup.sublist (hsub.map _) hnd
  have hall : ∀ x ∈ (pageRowsOf data p).map (fun r => (r.query, r.page)), x.2 = p := by
    intro x hx
    obtain ⟨r, hr, rfl⟩ := List.mem_map.mp hx
    have := List.of_mem_filter hr
    simpa using this
  have heq : (pageRowsOf data p).map (fun r => r.query)
      = ((pageRowsOf data p).map (fun r => (r.query, r.page))).map Prod.fst := by
    simp [List.map_map]
  rw [heq]
  refine List.Nodup.map_on ?_ h2
  intro x hx y hy hxy
  have hx2 := hall x hx
  have hy2 := hall y hy
  exact Prod.ext hxy (hx2.trans hy2.symm)

/-- **C6 (amended).** Every record returned by `get_pages_to_expand` comes
from a page group over the non-empty-page rows; provided the input rows are
distinct on `(query, page)` (which `GROUP BY query, page` in the data layer
guarantees), the kept pages are exactly those with distinct-query count
≥ `min_keywords` (up to the limit), with `keyword_count` equal to that
distinct count; the reported `avg_position` is the *unweighted* arithmetic
mean of the page's per-row positions — *rounded to one decimal* (the
correction the code forces); totals are the sums over the page's rows; and
the output is pairwise non-increasing on `keyword_count`. -/
theorem get_pages_to_expand_spec (data : List Row) (minK limit : ℕ)
    (hnd : (data.map (fun r => (r.query, r.page))).Nodup)
    (rec : ExpandRec) (hrec : rec ∈ get_pages_to_expand data minK limit) :
    (∃ p a, (p, a) ∈ pageGroups data ∧ rec = mkExpand p a ∧ p ≠ "" ∧
      minK ≤ a.keywords.length ∧
      rec.keyword_count = ((pageRowsOf data p).map (fun r => r.query)).dedup.length ∧
      rec.avg_position = pyRoundTo
        ((((pageRowsOf data p).map (fun r => r.avg_position)).sum)
          / ((((pageRowsOf data p).map (fun r => r.avg_position)).length : ℕ) : ℚ)) 1 ∧
      rec.total_clicks = ((pageRowsOf data p).map (fun r => r.total_clicks)).sum ∧
      rec.total_impressions
        = ((pageRowsOf data p).map (fun r => r.total_impressions)).sum) ∧
    (((pageGroups data).filter (fun e => decide (minK ≤ e.2.keywords.length))).length ≤ limit →
      ∀ p : String, p ∈ data.map (fun r => r.page) → p ≠ "" →
        minK ≤ ((pageRowsOf data p).map (fun r => r.query)).dedup.length →
        ∃ rec' ∈ get_pages_to_expand data minK limit, rec'.page = p) ∧
    (get_pages_to_expand data minK limit).Pairwise
      (fun a b => b.keyword_count ≤ a.keyword_count) := by
  refine ⟨?_, ?_, ?_⟩
  · have hmem := List.mem_mergeSort.mp (List.take_subset _ _ hrec)
    obtain ⟨e, he, rfl⟩ := List.mem_map.mp hmem
    obtain ⟨hePG, hkeep⟩ := List.mem_filter.mp he
    have hk : minK ≤ e.2.keywords.length := of_decide_eq_true hkeep
    obtain ⟨hne, hkw, hpos, hclk, himp⟩ := (pageGroups_inv data).1 e hePG
    refine ⟨e.1, e.2, hePG, rfl, hne, hk, ?_, ?_, hclk, himp⟩
    · have hnodup : ((pageRowsOf data e.1).map (fun r => r.query)).Nodup :=
        nodup_queries_of_page data e.1 hnd
      rw [List.dedup_eq_self.mpr hnodup]
      show e.2.keywords.length = _
      rw [hkw]
    · show pyRoundTo (if e.2.positions ≠ [] then
          e.2.positions.sum / (e.2.positions.length : ℚ) else 0) 1 = _
      by_cases hnil : e.2.positions = []
      · rw [if_neg (by simpa using hnil), ← hpos, hnil]
        norm_num
      · rw [if_pos (by simpa using hnil), hkw] at *
        rw [hpos]
  · intro hlen p hpmem hpne hcnt
    obtain ⟨r, hr, hrp⟩ := List.mem_map.mp hpmem
    obtain ⟨e, hePG, hkey⟩ := (pageGroups_inv data).2 r hr (hrp ▸ hpne)
    have hkey' : e.1 = p := hkey.trans hrp
    obtain ⟨hne, hkw, hpos, hclk, himp⟩ := (pageGroups_inv data).1 e hePG
    have hklen : minK ≤ e.2.keywords.length := by
      calc minK ≤ ((pageRowsOf data p).map (fun r => r.query)).dedup.length := hcnt
        _ ≤ ((pageRowsOf data p).map (fun r => r.query)).length :=
            (List.dedup_sublist _).length_le
        _ = e.2.keywords.length := by rw [hkw, hkey']
    have hefilter : e ∈ (pageGroups data).filter
        (fun e => decide (minK ≤ e.2.keywords.length)) :=
      List.mem_filter.mpr ⟨hePG, decide_eq_true hklen⟩
    refine ⟨mkExpand e.1 e.2, ?_, hkey'⟩
    simp only [get_pages_to_expand]
    rw [List.take_of_length_le (by simpa using hlen)]
    exact List.mem_mergeSort.mpr (List.mem_map_of_mem _ hefilter)
  · simp only [get_pages_to_expand]
    exact pairwise_take limit
      (pairwise_mergeSort_desc (fun r : ExpandRec => r.keyword_count) _)

lemma get_pages_to_expand_single (data : List Row) (p : String) (a : PageAcc)
    (minK limit : ℕ) (hg : pageGroups data = [(p, a)])
    (hk : minK ≤ a.keywords.length) (hl : 1 ≤ limit) :
    get_pages_to_expand data minK limit = [mkExpand p a] := by
  simp only [get_pages_to_expand, hg]
  rw [show List.filter (fun e => decide (minK ≤ e.2.keywords.length)) [(p, a)] = [(p, a)]
    from by simp [hk]]
  simp only [List.map, List.mergeSort_singleton]
  exact List.take_of_length_le (by simpa using hl)

/-- Three rows on one page with positions 1, 1, 2 (unweighted mean 4/3). -/
def expandCexRows : List Row :=
  [{ query := "a", page := "/p", total_clicks := 0, total_impressions := 0,
     avg_ctr := 0, avg_position := 1 },
   { query := "b", page := "/p", total_clicks := 0, total_impressions := 0,
     avg_ctr := 0, avg_position := 1 },
   { query := "c", page := "/p", total_clicks := 0, total_impressions := 0,
     avg_ctr := 0, avg_position := 2 }]

/-- The page accumulator the grouping builds for `expandCexRows`. -/
def expandCexAcc : PageAcc :=
  { keywords := ["a", "b", "c"], total_clicks := 0, total_impressions := 0,
    positions := [1, 1, 2],
    keyword_details :=
      [{ query := "a", impressions := 0, clicks := 0, position := 1 },
       { query := "b", impressions := 0, clicks := 0, position := 1 },
       { query := "c", impressions := 0, clicks := 0, position := 2 }] }

attribute [local semireducible] Rat.mul Rat.inv Rat.add Rat.sub in
lemma expandCex_groups : pageGroups expandCexRows = [("/p", expandCexAcc)] := by decide

attribute [local semireducible] Rat.mul Rat.inv Rat.add Rat.sub in
/-- **C6 counterexample.** For three rows on one page with positions
1, 1, 2 and `min_keywords = 3`, the page's unweighted mean position is
`4/3`, but the detector reports `avg_position = 1.3` (rounded to one
decimal): the claim's exact equality with the arithmetic mean fails. -/
theorem get_pages_to_expand_avg_position_cex :
    (get_pages_to_expand expandCexRows 3 100).map (fun r => r.avg_position) = [13/10] ∧
    (((pageRowsOf expandCexRows "/p").map (fun r => r.avg_position)).sum
        / ((((pageRowsOf expandCexRows "/p").map (fun r => r.avg_position)).length : ℕ) : ℚ))
      = 4/3 ∧
    (13/10 : ℚ) ≠ 4/3 := by
  refine ⟨?_, by decide, by decide⟩
  rw [get_pages_to_expand_single expandCexRows "/p" expandCexAcc 3 100 expandCex_groups
    (by decide) (by norm_num)]
  decide

attribute [local semireducible] Rat.mul Rat.inv Rat.add Rat.sub in
/-- Witness for C6's theorem at the three-row concrete input, discharging
the distinctness and membership hypotheses concretely. -/
theorem get_pages_to_expand_spec_witness :
    (get_pages_to_expand expandCexRows 3 100).Pairwise
      (fun a b => b.keyword_count ≤ a.keyword_count) := by
  have hrec : mkExpand "/p" expandCexAcc ∈ get_pages_to_expand expandCexRows 3 100 := by
    rw [get_pages_to_expand_single expandCexRows "/p" expandCexAcc 3 100 expandCex_groups
      (by decide) (by norm_num)]
    exact List.mem_singleton_self _
  exact (get_pages_to_expand_spec expandCexRows 3 100 (by decide) _ hrec).2.2

/-! ## Keyword clustering engine

`cluster_keywords` (lines 275-328).  Queries are lower-cased, tokenized by
`re.findall(r'\b\w+\b', ...)` (maximal runs of word characters — the ASCII
regime of `\w` is modelled), made into a set, and stripped of stop words.
The Python `set` is modelled as the alphabetically ordered list of its
elements: a canonical, order-independent enumeration.  Python's stable
`sorted` is modelled by the structural stable sort `List.insertionSort`. -/

/-- ASCII regime of the regex class `\w`: `[0-9A-Za-z_]`. -/
def isWordChar (c : Char) : Bool :=
  decide ((48 ≤ c.toNat ∧ c.toNat ≤ 57) ∨ (65 ≤ c.toNat ∧ c.toNat ≤ 90) ∨
    (97 ≤ c.toNat ∧ c.toNat ≤ 122) ∨ c.toNat = 95)

/-- `re.findall(r'\b\w+\b', s)`: the maximal runs of word characters. -/
def tokenize : List Char → List (List Char)
  | [] => []
  | [c] => if isWordChar c then [[c]] else []
  | c :: c2 :: cs =>
    if isWordChar c then
      if isWordChar c2 then
        match tokenize (c2 :: cs) with
        | t :: ts => (c :: t) :: ts
        | [] => [[c]]
      else [c] :: tokenize (c2 :: cs)
    else tokenize (c2 :: cs)

lemma tokenize_cons_word (c : Char) (cs : List Char) (h : isWordChar c = true) :
    tokenize (c :: cs)
      = (c :: cs.takeWhile isWordChar) :: tokenize (cs.dropWhile isWordChar) := by
  induction cs generalizing c with
  | nil => simp [tokenize, h]
  | cons c2 cs' ih =>
    by_cases h2 : isWordChar c2 = true
    · rw [show tokenize (c :: c2 :: cs') = (match tokenize (c2 :: cs') with
          | t :: ts => (c :: t) :: ts
          | [] => [[c]]) from by simp [tokenize, h, h2]]
      rw [ih c2 h2]
      simp [List.takeWhile_cons, List.dropWhile_cons, h2]
    · have h2' : isWordChar c2 = false := Bool.not_eq_true _ ▸ h2
      rw [show tokenize (c :: c2 :: cs') = [c] :: tokenize (c2 :: cs')
          from by simp [tokenize, h, h2']]
      simp [List.takeWhile_cons, List.dropWhile_cons, h2']

lemma tokenize_cons_nonword (c : Char) (cs : List Char) (h : isWordChar c = false) :
    tokenize (c :: cs) = tokenize cs := by
  cases cs with
  | nil => simp [tokenize, h]
  | cons c2 cs' => simp [tokenize, h]

/-- Every token is a non-empty run of word characters drawn from the input. -/
lemma tokenize_sound (l : List Char) :
    ∀ t ∈ tokenize l, t ≠ [] ∧ ∀ ch ∈ t, isWordChar ch = true ∧ ch ∈ l := by
  suffices h : ∀ n (l : List Char), l.length ≤ n →
      ∀ t ∈ tokenize l, t ≠ [] ∧ ∀ ch ∈ t, isWordChar ch = true ∧ ch ∈ l from
    h l.length l le_rfl
  intro n
  induction n with
  | zero =>
    intro l hl
    rw [List.length_eq_zero.mp (Nat.le_zero.mp hl)]
    intro t ht
    simp [tokenize] at ht
  | succ n ih =>
    intro l hl
    cases l with
    | nil => intro t ht; simp [tokenize] at ht
    | cons c cs =>
      by_cases hw : isWordChar c = true
      · rw [tokenize_cons_word c cs hw]
        intro t ht
        rcases List.mem_cons.mp ht with rfl | ht'
        · refine ⟨by simp, ?_⟩
          intro ch hch
          rcases List.mem_cons.mp hch with rfl | hch'
          · exact ⟨hw, List.mem_cons_self _ _⟩
          · exact ⟨List.mem_takeWhile_imp hch',
              List.mem_cons_of_mem _ ((List.takeWhile_sublist _).subset hch')⟩
        · have hlen : (cs.dropWhile isWordChar).length ≤ n := by
            have h1 : (cs.dropWhile isWordChar).length ≤ cs.length :=
              (List.dropWhile_sublist _).length_le
            simp at hl
            omega
          obtain ⟨hne, hprop⟩ := ih (cs.dropWhile isWordChar) hlen t ht'
          refine ⟨hne, fun ch hch => ?_⟩
          obtain ⟨hw', hmem⟩ := hprop ch hch
          exact ⟨hw', List.mem_cons_of_mem _ ((List.dropWhile_sublist _).subset hmem)⟩
      · have hw' : isWordChar c = false := Bool.not_eq_true _ ▸ hw
        rw [tokenize_cons_nonword c cs hw']
        intro t ht
        have hlen : cs.length ≤ n := by simp at hl; omega
        obtain ⟨hne, hprop⟩ := ih cs hlen t ht
        refine ⟨hne, fun ch hch => ?_⟩
        obtain ⟨hwc, hmem⟩ := hprop ch hch
        exact ⟨hwc, List.mem_cons_of_mem _ hmem⟩

lemma takeWhile_append_all {p : Char → Bool} (w l : List Char)
    (hw : ∀ c ∈ w, p c = true) : (w ++ l).takeWhile p = w ++ l.takeWhile p := by
  induction w with
  | nil => simp
  | cons c w' ih =>
    have hc : p c = true := hw c (List.mem_cons_self _ _)
    simp only [List.cons_append, List.takeWhile_cons, hc, if_true]
    rw [ih (fun c hcw => hw c (List.mem_cons_of_mem _ hcw))]

lemma dropWhile_append_all {p : Char → Bool} (w l : List Char)
    (hw : ∀ c ∈ w, p c = true) : (w ++ l).dropWhile p = l.dropWhile p := by
  induction w with
  | nil => simp
  | cons c w' ih =>
    have hc : p c = true := hw c (List.mem_cons_self _ _)
    simp only [List.cons_append, List.dropWhile_cons, hc, if_true]
    exact ih (fun c hcw => hw c (List.mem_cons_of_mem _ hcw))

lemma dropWhile_eq_self_of_takeWhile_nil {p : Char → Bool} (l : List Char)
    (h : l.takeWhile p = []) : l.dropWhile p = l := by
  cases l with
  | nil => rfl
  | cons c cs =>
    rw [List.takeWhile_cons] at h
    by_cases hc : p c = true
    · rw [if_pos hc] at h; exact absurd h (by simp)
    · have hc' : p c = false := Bool.not_eq_true _ ▸ hc
      simp [List.dropWhile_cons, hc']

lemma tokenize_word_append (w l : List Char) (hw : w ≠ [])
    (hall : ∀ c ∈ w, isWordChar c = true) (hl : l.takeWhile isWordChar = []) :
    tokenize (w ++ l) = w :: tokenize l := by
  cases w with
  | nil => exact absurd rfl hw
  | cons c w' =>
    have hc : isWordChar c = true := hall c (List.mem_cons_self _ _)
    have hw' : ∀ c' ∈ w', isWordChar c' = true :=
      fun c' hc' => hall c' (List.mem_cons_of_mem _ hc')
    rw [List.cons_append, tokenize_cons_word c (w' ++ l) hc,
      takeWhile_append_all w' l hw', dropWhile_append_all w' l hw', hl,
      dropWhile_eq_self_of_takeWhile_nil l hl]
    simp

/-- Python `' '.join` on raw character lists. -/
def joinWords : List (List Char) → List Char
  | [] => []
  | [w] => w
  | w :: ws => w ++ ' ' :: joinWords ws

/-- Tokenizing a space-join of non-empty all-word-character words recovers
exactly the word list. -/
lemma tokenize_joinWords (ws : List (List Char)) (h1 : ∀ w ∈ ws, w ≠ [])
    (h2 : ∀ w ∈ ws, ∀ c ∈ w, isWordChar c = true) :
    tokenize (joinWords ws) = ws := by
  induction ws with
  | nil => simp [joinWords, tokenize]
  | cons w ws' ih =>
    cases ws' with
    | nil =>
      show tokenize (joinWords [w]) = [w]
      have : joinWords [w] = w ++ [] := by simp [joinWords]
      rw [this, tokenize_word_append w [] (h1 w (List.mem_cons_self _ _))
        (h2 w (List.mem_cons_self _ _)) (by simp)]
      simp [tokenize]
    | cons w2 ws'' =>
      have hjw : joinWords (w :: w2 :: ws'') = w ++ ' ' :: joinWords (w2 :: ws'') := rfl
      rw [hjw, tokenize_word_append w (' ' :: joinWords (w2 :: ws''))
        (h1 w (List.mem_cons_self _ _)) (h2 w (List.mem_cons_self _ _))
        (by simp [List.takeWhile_cons, isWordChar])]
      rw [tokenize_cons_nonword ' ' _ (by simp [isWordChar])]
      rw [ih (fun w' hw' => h1 w' (List.mem_cons_of_mem _ hw'))
        (fun w' hw' => h2 w' (List.mem_cons_of_mem _ hw'))]

lemma mem_joinWords {c : Char} : ∀ {ws : List (List Char)}, c ∈ joinWords ws →
    c = ' ' ∨ ∃ w ∈ ws, c ∈ w := by
  intro ws
  induction ws with
  | nil => intro h; simp [joinWords] at h
  | cons w ws' ih =>
    cases ws' with
    | nil =>
      intro h
      exact Or.inr ⟨w, List.mem_cons_self _ _, h⟩
    | cons w2 ws'' =>
      intro h
      rcases List.mem_append.mp h with h' | h'
      · exact Or.inr ⟨w, List.mem_cons_self _ _, h'⟩
      · rcases List.mem_cons.mp h' with rfl | h''
        · exact Or.inl rfl
        · rcases ih h'' with h3 | ⟨w', hw', hc⟩
          · exact Or.inl h3
          · exact Or.inr ⟨w', List.mem_cons_of_mem _ hw', hc⟩

lemma char_toNat_ofNat {n : ℕ} (h : n.isValidChar) : (Char.ofNat n).toNat = n := by
  rw [Char.ofNat, dif_pos h]
  simp [Char.ofNatAux, Char.toNat, UInt32.toNat]

lemma lowerChar_not_upper (c : Char) :
    ¬(65 ≤ (lowerChar c).toNat ∧ (lowerChar c).toNat ≤ 90) := by
  unfold lowerChar
  by_cases h : 65 ≤ c.toNat ∧ c.toNat ≤ 90
  · rw [if_pos h]
    have hv : (c.toNat + 32).isValidChar := Or.inl (by omega)
    rw [char_toNat_ofNat hv]
    omega
  · rw [if_neg h]
    exact h

lemma lowerChar_idem (c : Char) : lowerChar (lowerChar c) = lowerChar c := by
  have h := lowerChar_not_upper c
  show (if 65 ≤ (lowerChar c).toNat ∧ (lowerChar c).toNat ≤ 90
      then Char.ofNat ((lowerChar c).toNat + 32) else lowerChar c) = lowerChar c
  rw [if_neg h]

lemma lowerStr_idem (s : String) : lowerStr (lowerStr s) = lowerStr s := by
  simp only [lowerStr, List.map_map]
  congr 1
  exact List.map_congr_left (fun c _ => lowerChar_idem c)

lemma lowerStr_fixed_of_chars (s : String) (h : ∀ c ∈ s.data, lowerChar c = c) :
    lowerStr s = s := by
  have hmap : s.data.map lowerChar = s.data := by
    have h1 : s.data.map lowerChar = s.data.map id :=
      List.map_congr_left (fun c hc => h c hc)
    rw [h1, List.map_id]
  show String.mk (s.data.map lowerChar) = s
  rw [hmap]

/-- Code-point lexicographic comparison of character lists — the order
Python uses to compare strings. -/
def charsLe : List Char → List Char → Bool
  | [], _ => true
  | _ :: _, [] => false
  | c :: cs, d :: ds =>
    if c.toNat < d.toNat then true
    else if d.toNat < c.toNat then false
    else charsLe cs ds

/-- Python's `<=` on strings: code-point lexicographic order. -/
def strLe (a b : String) : Bool := charsLe a.data b.data

lemma char_eq_of_toNat_eq {c d : Char} (h : c.toNat = d.toNat) : c = d :=
  Char.eq_of_val_eq (UInt32.ext h)

lemma charsLe_total : ∀ a b : List Char, charsLe a b = true ∨ charsLe b a = true := by
  intro a
  induction a with
  | nil => intro b; exact Or.inl rfl
  | cons c cs ih =>
    intro b
    cases b with
    | nil => exact Or.inr rfl
    | cons d ds =>
      by_cases h1 : c.toNat < d.toNat
      · exact Or.inl (by simp [charsLe, h1])
      · by_cases h2 : d.toNat < c.toNat
        · exact Or.inr (by simp [charsLe, h2])
        · rcases ih ds with h | h
          · exact Or.inl (by simp [charsLe, h1, h2, h])
          · exact Or.inr (by simp [charsLe, h1, h2, h])

lemma charsLe_trans : ∀ a b c : List Char,
    charsLe a b = true → charsLe b c = true → charsLe a c = true := by
  intro a
  induction a with
  | nil => intro b c _ _; rfl
  | cons x xs ih =>
    intro b c hab hbc
    cases b with
    | nil => simp [charsLe] at hab
    | cons y ys =>
      cases c with
      | nil => simp [charsLe] at hbc
      | cons z zs =>
        simp only [charsLe] at hab hbc ⊢
        by_cases hxy : x.toNat < y.toNat
        · by_cases hyz : y.toNat < z.toNat
          · rw [if_pos (by omega)]
          · by_cases hzy : z.toNat < y.toNat
            · rw [if_neg hyz, if_pos hzy] at hbc
              exact absurd hbc (by simp)
            · rw [if_pos (by omega)]
        · by_cases hyx : y.toNat < x.toNat
          · rw [if_neg hxy, if_pos hyx] at hab
            exact absurd hab (by simp)
          · by_cases hyz : y.toNat < z.toNat
            · rw [if_pos (by omega)]
            · by_cases hzy : z.toNat < y.toNat
              · rw [if_neg hyz, if_pos hzy] at hbc
                exact absurd hbc (by simp)
              · rw [if_neg hxy, if_neg hyx] at hab
                rw [if_neg hyz, if_neg hzy] at hbc
                rw [if_neg (by omega), if_neg (by omega)]
                exact ih ys zs hab hbc

lemma charsLe_antisymm : ∀ a b : List Char,
    charsLe a b = true → charsLe b a = true → a = b := by
  intro a
  induction a with
  | nil =>
    intro b _ hba
    cases b with
    | nil => rfl
    | cons d ds => simp [charsLe] at hba
  | cons c cs ih =>
    intro b hab hba
    cases b with
    | nil => simp [charsLe] at hab
    | cons d ds =>
      simp only [charsLe] at hab hba
      by_cases h1 : c.toNat < d.toNat
      · rw [if_neg (by omega), if_pos h1] at hba
        exact absurd hba (by simp)
      · by_cases h2 : d.toNat < c.toNat
        · rw [if_neg h1, if_pos h2] at hab
          exact absurd hab (by simp)
        · rw [if_neg h1, if_neg h2] at hab
          rw [if_neg h2, if_neg h1] at hba
          rw [char_eq_of_toNat_eq (by omega : c.toNat = d.toNat), ih ds hab hba]

/-- The sorting relation for Python's `sorted` on strings. -/
def strLeRel (a b : String) : Prop := strLe a b = true

instance strLeRel_decidable : DecidableRel strLeRel := fun a b =>
  inferInstanceAs (Decidable (strLe a b = true))

instance strLeRel_total : IsTotal String strLeRel :=
  ⟨fun a b => charsLe_total a.data b.data⟩

instance strLeRel_trans : IsTrans String strLeRel :=
  ⟨fun a b c => charsLe_trans a.data b.data c.data⟩

instance strLeRel_antisymm : IsAntisymm String strLeRel :=
  ⟨fun a b hab hba => by
    cases a with
    | mk da =>
      cases b with
      | mk db =>
        have := charsLe_antisymm da db hab hba
        rw [this]⟩

/-- The stop-word set of `cluster_keywords` (lines 289-298). -/
def stopwords : List String :=
  ["the", "a", "an", "is", "are", "was", "were", "be", "been",
   "being", "have", "has", "had", "do", "does", "did", "will",
   "would", "could", "should", "may", "might", "must", "shall",
   "can", "need", "dare", "ought", "used", "to", "of", "in",
   "for", "on", "with", "at", "by", "from", "up", "about",
   "into", "over", "after", "and", "but", "or", "not", "what",
   "which", "who", "whom", "this", "that", "these", "those",
   "am", "than", "how", "when", "where", "why", "all", "each",
   "every", "both", "few", "more", "most", "other", "some",
   "such", "no", "nor", "only", "own", "same", "so", "just", "vs"]

/-- `set(re.findall(r'\b\w+\b', query.lower())) - stopwords` (lines 301-302),
the Python set modelled as the alphabetically ordered list of its elements. -/
def sigWords (query : String) : List String :=
  ((((tokenize (lowerStr query).data).map (fun t => String.mk t)).dedup).filter
    (fun w => !(stopwords.contains w))).insertionSort strLeRel

lemma sigWords_nodup (q : String) : (sigWords q).Nodup :=
  ((List.perm_insertionSort _ _).nodup_iff).mpr
    ((List.nodup_dedup _).filter _)

lemma sigWords_sorted (q : String) : (sigWords q).Sorted strLeRel :=
  List.sorted_insertionSort _ _

lemma mem_sigWords {q w : String} (h : w ∈ sigWords q) :
    w.data ≠ [] ∧ (∀ c ∈ w.data, isWordChar c = true) ∧
    (∀ c ∈ w.data, c ∈ (lowerStr q).data) ∧ stopwords.contains w = false := by
  have h1 := (List.perm_insertionSort strLeRel _).mem_iff.mp h
  obtain ⟨h2, h3⟩ := List.mem_filter.mp h1
  have h4 : stopwords.contains w = false := by
    cases hc : stopwords.contains w
    · rfl
    · rw [hc] at h3; simp at h3
  obtain ⟨t, ht, rfl⟩ := List.mem_map.mp (List.mem_dedup.mp h2)
  obtain ⟨hne, hprop⟩ := tokenize_sound _ t ht
  exact ⟨hne, fun c hc => (hprop c hc).1, fun c hc => (hprop c hc).2, h4⟩

/-- `sigWords` only sees the lower-cased query, so lower-casing first
changes nothing. -/
lemma sigWords_lowerStr (q : String) : sigWords (lowerStr q) = sigWords q := by
  unfold sigWords
  rw [lowerStr_idem]

/-- Python `' '.join` on strings. -/
def joinStrings (ws : List String) : String := ⟨joinWords (ws.map (fun w => w.data))⟩

/-- One input record of `cluster_keywords` (the dicts built by
`get_content_gaps`, lines 241-247: query, page, position, impressions,
clicks). -/
structure Keyword where
  query : String
  page : String
  position : ℚ
  impressions : ℕ
  clicks : ℕ
deriving Repr, DecidableEq

/-- The cluster name computed for one keyword (lines 300-311): lower-case,
tokenize, drop stop words; with fewer than 2 significant words the lowered
raw query is the name, otherwise the up-to-3 longest significant words
(stable ties) sorted alphabetically and joined by single spaces. -/
def clusterName (kw : Keyword) : String :=
  let query := lowerStr kw.query
  let words := sigWords kw.query
  if words.length < 2 then query
  else
    let significant_words := (words.insertionSort (fun a b => b.length ≤ a.length)).take 3
    joinStrings (significant_words.insertionSort strLeRel)

/-- One member record appended to a cluster (lines 313-318). -/
structure MemberRec where
  query : String
  impressions : ℕ
  clicks : ℕ
  position : ℚ
deriving Repr, DecidableEq

/-- The per-cluster accumulator (lines 280-286); the Python `set` of pages is
modelled as an insertion-ordered duplicate-free list. -/
structure ClusterData where
  queries : List MemberRec
  total_impressions : ℕ
  total_clicks : ℕ
  best_position : ℚ
  pages : List String
deriving Repr, DecidableEq

/-- The `defaultdict` default (lines 280-286): `best_position` starts at
100. -/
def emptyClusterData : ClusterData :=
  { queries := [], total_impressions := 0, total_clicks := 0,
    best_position := 100, pages := [] }

/-- The projection of an input keyword into its member record. -/
def toMember (kw : Keyword) : MemberRec :=
  { query := kw.query, impressions := kw.impressions,
    clicks := kw.clicks, position := kw.position }

/-- One accumulation into a named cluster (lines 313-326). -/
def clusterUpdate (kw : Keyword) (c : ClusterData) : ClusterData :=
  { queries := c.queries ++ [toMember kw]
    total_impressions := c.total_impressions + kw.impressions
    total_clicks := c.total_clicks + kw.clicks
    best_position := min c.best_position kw.position
    pages := if kw.page ≠ "" then
        (if c.pages.contains kw.page then c.pages else c.pages ++ [kw.page])
      else c.pages }

/-- One loop iteration of `cluster_keywords` (lines 300-326). -/
def clusterStep (acc : List (String × ClusterData)) (kw : Keyword) :
    List (String × ClusterData) :=
  upsert acc (clusterName kw) emptyClusterData (clusterUpdate kw)

/-- `cluster_keywords` (lines 275-328): insertion-ordered mapping from
cluster name to cluster data. -/
def cluster_keywords (keywords : List Keyword) : List (String × ClusterData) :=
  keywords.foldl clusterStep []

/-- The keywords of `done` that fall into the cluster named `n`. -/
def clusterRowsOf (done : List Keyword) (n : String) : List Keyword :=
  done.filter (fun kw => clusterName kw == n)

/-- What one cluster entry holds after processing `done`. -/
def ClusterInv (done : List Keyword) (e : String × ClusterData) : Prop :=
  e.2.queries = (clusterRowsOf done e.1).map toMember ∧
  e.2.total_impressions = ((clusterRowsOf done e.1).map (fun kw => kw.impressions)).sum ∧
  e.2.total_clicks = ((clusterRowsOf done e.1).map (fun kw => kw.clicks)).sum ∧
  e.2.best_position = ((clusterRowsOf done e.1).map (fun kw => kw.position)).foldl min 100 ∧
  clusterRowsOf done e.1 ≠ []

lemma clusterRowsOf_append_one (done : List Keyword) (kw : Keyword) (n : String) :
    clusterRowsOf (done ++ [kw]) n
      = clusterRowsOf done n ++ (if clusterName kw == n then [kw] else []) := by
  simp only [clusterRowsOf, List.filter_append, List.filter]
  cases h : clusterName kw == n <;> simp

lemma clusterStep_inv {done : List Keyword} {acc : List (String × ClusterData)}
    (kw : Keyword)
    (h1 : ∀ e ∈ acc, ClusterInv done e)
    (h2 : ∀ kw' ∈ done, ∃ e ∈ acc, e.1 = clusterName kw')
    (h3 : (acc.map Prod.fst).Nodup) :
    (∀ e ∈ clusterStep acc kw, ClusterInv (done ++ [kw]) e) ∧
    (∀ kw' ∈ done ++ [kw], ∃ e ∈ clusterStep acc kw, e.1 = clusterName kw') ∧
    ((clusterStep acc kw).map Prod.fst).Nodup := by
  have hkeep : ∀ e : String × ClusterData, e.1 ≠ clusterName kw → ClusterInv done e →
      ClusterInv (done ++ [kw]) e := by
    rintro e hne ⟨ha, hb, hc, hd, he⟩
    have hif : (clusterName kw == e.1) = false := by
      simp only [beq_eq_false_iff_ne, ne_eq]
      exact fun h => hne h.symm
    refine ⟨?_, ?_, ?_, ?_, ?_⟩ <;>
      rw [clusterRowsOf_append_one, hif] <;> simp [ha, hb, hc, hd, he]
  refine ⟨?_, ?_, ?_⟩
  · intro e' he'
    rcases mem_upsert he' with ⟨e, he, hk, hee⟩ | ⟨e, he, hk, hee⟩ | ⟨rfl, habs⟩
    · subst hee
      exact hkeep e' (by simpa using hk) (h1 e' he)
    · subst hee
      have hkey : e.1 = clusterName kw := eq_of_beq hk
      obtain ⟨ha, hb, hc, hd, he5⟩ := h1 e he
      have hif : (clusterName kw == e.1) = true := by simp [hkey]
      refine ⟨?_, ?_, ?_, ?_, ?_⟩ <;>
        simp only [clusterRowsOf_append_one, hif, if_true] <;>
        simp [clusterUpdate, ha, hb, hc, hd, he5]
    · have hnil : clusterRowsOf done (clusterName kw) = [] := by
        rcases hx : clusterRowsOf done (clusterName kw) with _ | ⟨k0, rest⟩
        · rfl
        · exfalso
          have hk0 : k0 ∈ clusterRowsOf done (clusterName kw) := by
            rw [hx]; exact List.mem_cons_self _ _
          have hk0d : k0 ∈ done := List.mem_of_mem_filter hk0
          have hk0n : clusterName k0 = clusterName kw := by
            have := List.of_mem_filter hk0
            simpa using this
          obtain ⟨e, he, hee⟩ := h2 k0 hk0d
          have := habs e he
          rw [hee, hk0n] at this
          simp at this
      have hif : (clusterName kw == clusterName kw) = true := by simp
      refine ⟨?_, ?_, ?_, ?_, ?_⟩ <;>
        simp only [clusterRowsOf_append_one, hif, if_true, hnil] <;>
        simp [clusterUpdate, emptyClusterData]
  · intro kw' hkw'
    rcases List.mem_append.mp hkw' with h | h
    · exact upsert_exists_key _ _ _ _ _ (Or.inl (h2 kw' h))
    · rw [List.mem_singleton.mp h]
      exact upsert_exists_key _ _ _ _ _ (Or.inr rfl)
  · rw [clusterStep, upsert]
    by_cases hpresent : acc.any (fun e => e.1 == clusterName kw)
    · rw [if_pos hpresent]
      have hfst : (acc.map (fun e : String × ClusterData =>
          if e.1 == clusterName kw then (e.1, clusterUpdate kw e.2) else e)).map Prod.fst
          = acc.map Prod.fst := by
        rw [List.map_map]
        refine List.map_congr_left (fun e _ => ?_)
        by_cases hk : (e.1 == clusterName kw) = true
        · simp [eq_of_beq hk]
        · have hne : e.1 ≠ clusterName kw := by simpa using hk
          simp [hne]
      rw [hfst]
      exact h3
    · rw [if_neg hpresent, List.map_append]
      have hnotmem : clusterName kw ∉ acc.map Prod.fst := by
        intro hmem
        obtain ⟨e, he, hee⟩ := List.mem_map.mp hmem
        exact hpresent (List.any_eq_true.mpr ⟨e, he, by simp [hee]⟩)
      simp only [List.map_cons, List.map_nil]
      exact List.Nodup.append h3 (List.nodup_singleton _)
        (by simpa using hnotmem)

lemma cluster_keywords_inv (kws : List Keyword) :
    (∀ e ∈ cluster_keywords kws, ClusterInv kws e) ∧
    (∀ kw ∈ kws, ∃ e ∈ cluster_keywords kws, e.1 = clusterName kw) ∧
    ((cluster_keywords kws).map Prod.fst).Nodup := by
  suffices h : ∀ (rest done : List Keyword) (acc : List (String × ClusterData)),
      (∀ e ∈ acc, ClusterInv done e) →
      (∀ kw' ∈ done, ∃ e ∈ acc, e.1 = clusterName kw') →
      ((acc.map Prod.fst).Nodup) →
      (∀ e ∈ rest.foldl clusterStep acc, ClusterInv (done ++ rest) e) ∧
      (∀ kw' ∈ done ++ rest, ∃ e ∈ rest.foldl clusterStep acc, e.1 = clusterName kw') ∧
      ((rest.foldl clusterStep acc).map Prod.fst).Nodup by
    have h0 := h kws [] [] (by simp) (by simp) (by simp)
    rw [List.nil_append] at h0
    exact h0
  intro rest
  induction rest with
  | nil =>
    intro done acc ha hb hc
    rw [List.foldl_nil, List.append_nil]
    exact ⟨ha, hb, hc⟩
  | cons kw rest ih =>
    intro done acc ha hb hc
    have hstep := clusterStep_inv kw ha hb hc
    have hrec := ih (done ++ [kw]) (clusterStep acc kw) hstep.1 hstep.2.1 hstep.2.2
    rw [List.append_assoc, List.singleton_append] at hrec
    rw [List.foldl_cons]
    exact hrec

lemma flatten_insert_one {γ : Type} (F : String → List γ) (x : γ) (n0 : String) :
    ∀ names : List String, names.Nodup → n0 ∈ names →
      ((names.map (fun n => if (n0 == n) = true then x :: F n else F n)).flatten).Perm
        (x :: (names.map F).flatten) := by
  intro names
  induction names with
  | nil => intro _ h; simp at h
  | cons n names' ih =>
    intro hnd hmem
    by_cases hn : n0 = n
    · subst hn
      have hnot : n0 ∉ names' := (List.nodup_cons.mp hnd).1
      have hmap : names'.map (fun m => if (n0 == m) = true then x :: F m else F m)
          = names'.map F := by
        refine List.map_congr_left (fun m hm => ?_)
        have hc : (n0 == m) = false := by
          simp only [beq_eq_false_iff_ne, ne_eq]
          intro h; exact hnot (h ▸ hm)
        rw [hc]
        simp
      simp only [List.map_cons, beq_self_eq_true, if_pos rfl, List.flatten_cons, hmap]
      exact List.Perm.refl _
    · have hmem' : n0 ∈ names' := by
        rcases List.mem_cons.mp hmem with h | h
        · exact absurd h hn
        · exact h
      have hcond : (n0 == n) = false := by
        simp only [beq_eq_false_iff_ne, ne_eq]
        exact hn
      simp only [List.map_cons, hcond, List.flatten_cons]
      have hperm := ih (List.nodup_cons.mp hnd).2 hmem'
      exact (hperm.append_left (F n)).trans List.perm_middle

/-- Filtering a list by each of a duplicate-free covering family of keys and
concatenating recovers the list up to permutation. -/
lemma flatten_filter_perm {α : Type} (key : α → String) :
    ∀ (l : List α) (names : List String), names.Nodup →
      (∀ x ∈ l, key x ∈ names) →
      ((names.map (fun n => l.filter (fun x => key x == n))).flatten).Perm l := by
  intro l
  induction l with
  | nil =>
    intro names _ _
    have h1 : names.map (fun n => ([] : List α).filter (fun x => key x == n))
        = names.map (fun _ => ([] : List α)) := by simp
    rw [h1]
    have h2 : (names.map (fun _ => ([] : List α))).flatten = [] := by
      induction names with
      | nil => rfl
      | cons _ _ ih2 => simp [ih2]
    rw [h2]
  | cons x l ih =>
    intro names hnd hcov
    have hx : key x ∈ names := hcov x (List.mem_cons_self _ _)
    have hmap : names.map (fun n => (x :: l).filter (fun y => key y == n))
        = names.map (fun n => if (key x == n) = true
            then x :: l.filter (fun y => key y == n)
            else l.filter (fun y => key y == n)) := by
      refine List.map_congr_left (fun n _ => ?_)
      rw [List.filter_cons]
    rw [hmap]
    have h1 := flatten_insert_one (fun n => l.filter (fun y => key y == n)) x (key x)
      names hnd hx
    exact h1.trans ((ih names hnd (fun y hy => hcov y (List.mem_cons_of_mem _ hy))).cons x)

/-- **C10.** `cluster_keywords` partitions its input: the clusters' member
lists together are a permutation of the input records (each appears exactly
once), the cluster sizes sum to the input length, no cluster is empty, the
cluster names are pairwise distinct, and each cluster's impression and click
totals are the sums over its members. -/
theorem cluster_keywords_partition (kws : List Keyword) :
    ((cluster_keywords kws).map (fun e => e.2.queries)).flatten.Perm (kws.map toMember) ∧
    ((cluster_keywords kws).map (fun e => e.2.queries.length)).sum = kws.length ∧
    (∀ e ∈ cluster_keywords kws, e.2.queries ≠ []) ∧
    ((cluster_keywords kws).map Prod.fst).Nodup ∧
    (∀ e ∈ cluster_keywords kws,
      e.2.total_impressions = (e.2.queries.map (fun m => m.impressions)).sum ∧
      e.2.total_clicks = (e.2.queries.map (fun m => m.clicks)).sum) := by
  obtain ⟨hinv, hcov, hnd⟩ := cluster_keywords_inv kws
  have hperm : ((cluster_keywords kws).map (fun e => e.2.queries)).flatten.Perm
      (kws.map toMember) := by
    have hmapeq : (cluster_keywords kws).map (fun e => e.2.queries)
        = (cluster_keywords kws).map (fun e => (clusterRowsOf kws e.1).map toMember) :=
      List.map_congr_left (fun e he => (hinv e he).1)
    have hmm : (cluster_keywords kws).map (fun e => (clusterRowsOf kws e.1).map toMember)
        = ((cluster_keywords kws).map (fun e => clusterRowsOf kws e.1)).map
            (List.map toMember) := by
      rw [List.map_map]
      rfl
    rw [hmapeq, hmm, ← List.map_flatten]
    refine List.Perm.map toMember ?_
    have hre : (cluster_keywords kws).map (fun e => clusterRowsOf kws e.1)
        = ((cluster_keywords kws).map Prod.fst).map
            (fun n => kws.filter (fun kw => clusterName kw == n)) := by
      rw [List.map_map]
      rfl
    rw [hre]
    refine flatten_filter_perm clusterName kws ((cluster_keywords kws).map Prod.fst)
      hnd ?_
    intro kw hkw
    obtain ⟨e, he, hee⟩ := hcov kw hkw
    exact hee ▸ List.mem_map_of_mem _ he
  refine ⟨hperm, ?_, ?_, hnd, ?_⟩
  · have hlen := hperm.length_eq
    rw [List.length_flatten, List.map_map, List.length_map] at hlen
    simpa using hlen
  · intro e he
    obtain ⟨hq, _, _, _, hne⟩ := hinv e he
    rw [hq]
    simpa using hne
  · intro e he
    obtain ⟨hq, hti, htc, _, _⟩ := hinv e he
    constructor
    · rw [hq, hti, List.map_map]
      rfl
    · rw [hq, htc, List.map_map]
      rfl

/-- A keyword whose two significant words make a two-member name. -/
def c10Kw : Keyword :=
  { query := "alpha beta", page := "", position := 3, impressions := 10, clicks := 2 }

/-- The cluster entry `cluster_keywords [c10Kw]` builds. -/
def c10Entry : String × ClusterData :=
  ("alpha beta",
   { queries := [{ query := "alpha beta", impressions := 10, clicks := 2, position := 3 }],
     total_impressions := 10, total_clicks := 2, best_position := 3, pages := [] })

/-- Witness for C10 at a concrete one-keyword input, discharging the
membership hypotheses concretely. -/
theorem cluster_keywords_partition_witness :
    c10Entry.2.queries ≠ [] ∧
    c10Entry.2.total_impressions = (c10Entry.2.queries.map (fun m => m.impressions)).sum := by
  have hmem : c10Entry ∈ cluster_keywords [c10Kw] := by decide
  exact ⟨(cluster_keywords_partition [c10Kw]).2.2.1 c10Entry hmem,
    ((cluster_keywords_partition [c10Kw]).2.2.2.2 c10Entry hmem).1⟩

lemma foldl_min_le_init (l : List ℚ) (a : ℚ) : l.foldl min a ≤ a := by
  induction l generalizing a with
  | nil => simp
  | cons y l ih =>
    rw [List.foldl_cons]
    exact (ih (min a y)).trans (min_le_left a y)

lemma foldl_min_le_mem {l : List ℚ} {x : ℚ} (a : ℚ) (hx : x ∈ l) : l.foldl min a ≤ x := by
  induction l generalizing a with
  | nil => simp at hx
  | cons y l ih =>
    rw [List.foldl_cons]
    rcases List.mem_cons.mp hx with rfl | hx'
    · exact (foldl_min_le_init l (min a x)).trans (min_le_right a x)
    · exact ih (min a y) hx'

lemma foldl_min_choice (l : List ℚ) (a : ℚ) : l.foldl min a = a ∨ l.foldl min a ∈ l := by
  induction l generalizing a with
  | nil => exact Or.inl rfl
  | cons y l ih =>
    rw [List.foldl_cons]
    rcases ih (min a y) with h | h
    · rcases min_choice a y with h2 | h2
      · exact Or.inl (h.trans h2)
      · exact Or.inr (by rw [h, h2]; exact List.mem_cons_self _ _)
    · exact Or.inr (List.mem_cons_of_mem _ h)

/-- **C7 (amended).** `best_position` is `min(100, positions...)` because the
accumulator starts at 100; whenever every member's position is at most 100
(true of any real search position), it is exactly the minimum of the
members' positions: a member value that bounds all members from below. -/
theorem cluster_best_position (kws : List Keyword) (n : String) (c : ClusterData)
    (hmem : (n, c) ∈ cluster_keywords kws)
    (hle : ∀ m ∈ c.queries, m.position ≤ 100) :
    c.best_position ∈ c.queries.map (fun m => m.position) ∧
    (∀ m ∈ c.queries, c.best_position ≤ m.position) := by
  obtain ⟨hinv, _, _⟩ := cluster_keywords_inv kws
  obtain ⟨hq, _, _, hbest, hne⟩ := hinv (n, c) hmem
  have hP : c.queries.map (fun m => m.position)
      = (clusterRowsOf kws n).map (fun kw => kw.position) := by
    rw [hq, List.map_map]
    rfl
  have hPne : (clusterRowsOf kws n).map (fun kw => kw.position) ≠ [] := by
    simpa using hne
  have hall : ∀ x ∈ (clusterRowsOf kws n).map (fun kw => kw.position), x ≤ 100 := by
    intro x hx
    obtain ⟨kw, hkw, rfl⟩ := List.mem_map.mp hx
    have hmq : toMember kw ∈ c.queries := by
      rw [hq]
      exact List.mem_map_of_mem _ hkw
    exact hle _ hmq
  constructor
  · rw [hP]
    show c.best_position ∈ _
    rw [hbest]
    rcases foldl_min_choice ((clusterRowsOf kws n).map (fun kw => kw.position)) 100
      with h | h
    · obtain ⟨x0, hx0⟩ := List.exists_mem_of_ne_nil _ hPne
      have h1 := foldl_min_le_mem (l := (clusterRowsOf kws n).map (fun kw => kw.position))
        100 hx0
      have h2 := hall x0 hx0
      have h3 : ((clusterRowsOf kws n).map (fun kw => kw.position)).foldl min 100 = x0 :=
        le_antisymm h1 (by rw [h]; exact h2)
      rw [h3]
      exact hx0
    · exact h
  · intro m hm
    rw [hbest]
    have hmp : m.position ∈ (clusterRowsOf kws n).map (fun kw => kw.position) := by
      rw [hq] at hm
      obtain ⟨kw, hkw, rfl⟩ := List.mem_map.mp hm
      exact List.mem_map_of_mem _ hkw
    exact foldl_min_le_mem 100 hmp

/-- A keyword at position 150 — beyond the accumulator's 100 start value. -/
def c7CexKw : Keyword :=
  { query := "zz", page := "", position := 150, impressions := 3, clicks := 1 }

/-- **C7 counterexample.** For a single keyword at position 150 the cluster
reports `best_position = 100` (the accumulator's start), while the only
member position is 150: `best_position` is *not* the minimum of the
members' positions. -/
theorem cluster_best_position_cex :
    (cluster_keywords [c7CexKw]).map
        (fun e => (e.1, e.2.best_position, e.2.queries.map (fun m => m.position)))
      = [("zz", 100, [150])] ∧
    (100 : ℚ) ∉ [(150 : ℚ)] := by
  constructor <;> decide

/-- A keyword at position 5 for the C7 witness. -/
def c7WitKw : Keyword :=
  { query := "qq", page := "", position := 5, impressions := 2, clicks := 1 }

/-- The cluster entry built for `c7WitKw`. -/
def c7WitCluster : ClusterData :=
  { queries := [{ query := "qq", impressions := 2, clicks := 1, position := 5 }],
    total_impressions := 2, total_clicks := 1, best_position := 5, pages := [] }

/-- Witness for C7 at a concrete input, discharging both hypotheses. -/
theorem cluster_best_position_witness :
    c7WitCluster.best_position ∈ c7WitCluster.queries.map (fun m => m.position) :=
  (cluster_best_position [c7WitKw] "qq" c7WitCluster (by decide) (by decide)).1

lemma clusterName_lt2 (kw : Keyword) (h : (sigWords kw.query).length < 2) :
    clusterName kw = lowerStr kw.query := by
  simp only [clusterName]
  rw [if_pos h]

lemma two_le_sigWords_clusterName (kw : Keyword) (h : 2 ≤ (sigWords kw.query).length) :
    2 ≤ (sigWords (clusterName kw)).length := by
  have hname : clusterName kw
      = joinStrings ((((sigWords kw.query).insertionSort
          (fun a b => b.length ≤ a.length)).take 3).insertionSort strLeRel) := by
    simp only [clusterName]
    rw [if_neg (by omega)]
  set ws := ((((sigWords kw.query).insertionSort
      (fun a b => b.length ≤ a.length)).take 3).insertionSort strLeRel) with hws
  have hsub : ∀ w ∈ ws, w ∈ sigWords kw.query := by
    intro w hw
    have h1 := (List.perm_insertionSort strLeRel _).mem_iff.mp hw
    have h2 := List.take_subset _ _ h1
    exact (List.perm_insertionSort _ _).mem_iff.mp h2
  have hnodup : ws.Nodup := by
    have h1 : ((sigWords kw.query).insertionSort (fun a b => b.length ≤ a.length)).Nodup :=
      (List.perm_insertionSort _ _).nodup_iff.mpr (sigWords_nodup _)
    have h2 : (((sigWords kw.query).insertionSort
        (fun a b => b.length ≤ a.length)).take 3).Nodup :=
      h1.sublist (List.take_sublist 3 _)
    exact (List.perm_insertionSort _ _).nodup_iff.mpr h2
  have hlen : 2 ≤ ws.length := by
    have l1 : ws.length = (((sigWords kw.query).insertionSort
        (fun a b => b.length ≤ a.length)).take 3).length :=
      (List.perm_insertionSort _ _).length_eq
    have l3 : ((sigWords kw.query).insertionSort
        (fun a b => b.length ≤ a.length)).length = (sigWords kw.query).length :=
      (List.perm_insertionSort _ _).length_eq
    rw [l1, List.length_take, l3]
    omega
  have hprops : ∀ w ∈ ws, w.data ≠ [] ∧ (∀ c ∈ w.data, isWordChar c = true) ∧
      stopwords.contains w = false ∧ (∀ c ∈ w.data, lowerChar c = c) := by
    intro w hw
    obtain ⟨hne, hwc, hin, hstop⟩ := mem_sigWords (hsub w hw)
    refine ⟨hne, hwc, hstop, ?_⟩
    intro c hc
    have hcl := hin c hc
    have : c ∈ (lowerStr kw.query).data := hcl
    obtain ⟨c0, _, rfl⟩ := List.mem_map.mp (by simpa [lowerStr] using this)
    exact lowerChar_idem c0
  have hlower : lowerStr (joinStrings ws) = joinStrings ws := by
    apply lowerStr_fixed_of_chars
    intro c hc
    have hc' : c ∈ joinWords (ws.map (fun w => w.data)) := hc
    rcases mem_joinWords hc' with rfl | ⟨t, ht, hct⟩
    · decide
    · obtain ⟨w, hw, rfl⟩ := List.mem_map.mp ht
      exact (hprops w hw).2.2.2 c hct
  have htok : tokenize (lowerStr (joinStrings ws)).data = ws.map (fun w => w.data) := by
    rw [hlower]
    show tokenize (joinWords (ws.map (fun w => w.data))) = _
    apply tokenize_joinWords
    · intro t ht
      obtain ⟨w, hw, rfl⟩ := List.mem_map.mp ht
      exact (hprops w hw).1
    · intro t ht c hc
      obtain ⟨w, hw, rfl⟩ := List.mem_map.mp ht
      exact (hprops w hw).2.1 c hc
  rw [hname]
  unfold sigWords
  rw [htok]
  have hmk : (ws.map (fun w => w.data)).map (fun t => String.mk t) = ws := by
    rw [List.map_map]
    have : ∀ w ∈ ws, String.mk w.data = w := by
      intro w _
      cases w
      rfl
    exact (List.map_congr_left (fun w hw => this w hw)).trans (List.map_id ws)
  rw [hmk, List.dedup_eq_self.mpr hnodup,
    List.filter_eq_self.mpr (fun w hw => by rw [(hprops w hw).2.2.1]; rfl),
    (List.perm_insertionSort _ _).length_eq]
  exact hlen

/-- A `≥2`-significant-word cluster name can never equal the lowered query of
a `<2`-significant-word keyword: the two branches never collide. -/
lemma clusterName_ne_branch (kw kw' : Keyword) (h : (sigWords kw.query).length < 2)
    (h' : 2 ≤ (sigWords kw'.query).length) : clusterName kw' ≠ lowerStr kw.query := by
  intro heq
  have h1 := two_le_sigWords_clusterName kw' h'
  rw [heq, sigWords_lowerStr] at h1
  omega

/-- **C4.** (1) Two keywords whose queries have the identical set of ≥2
significant (non-stop) words — regardless of word order and letter case,
both normalized inside `sigWords` — receive the same cluster name.
(2) A keyword with fewer than 2 significant words gets the lowered raw query
as its cluster name, and any member of a cluster bearing that name has the
same lowered query: such clusters are per-(lowered-)query singletons. -/
theorem cluster_keywords_name_spec :
    (∀ kw1 kw2 : Keyword,
      (∀ w, w ∈ sigWords kw1.query ↔ w ∈ sigWords kw2.query) →
      2 ≤ (sigWords kw1.query).length →
      clusterName kw1 = clusterName kw2) ∧
    (∀ (kws : List Keyword) (kw : Keyword) (n : String) (c : ClusterData) (m : MemberRec),
      (sigWords kw.query).length < 2 →
      clusterName kw = lowerStr kw.query ∧
      ((n, c) ∈ cluster_keywords kws → n = lowerStr kw.query → m ∈ c.queries →
        lowerStr m.query = lowerStr kw.query)) := by
  constructor
  · intro kw1 kw2 hset hlen
    have heq : sigWords kw1.query = sigWords kw2.query := by
      have hperm : (sigWords kw1.query).Perm (sigWords kw2.query) :=
        (List.perm_ext_iff_of_nodup (sigWords_nodup _) (sigWords_nodup _)).mpr hset
      exact List.eq_of_perm_of_sorted hperm (sigWords_sorted _) (sigWords_sorted _)
    have hlen2 : 2 ≤ (sigWords kw2.query).length := heq ▸ hlen
    simp only [clusterName]
    rw [if_neg (by omega), if_neg (by omega), heq]
  · intro kws kw n c m hlt
    refine ⟨clusterName_lt2 kw hlt, ?_⟩
    intro hmem hn hm
    obtain ⟨hinv, _, _⟩ := cluster_keywords_inv kws
    have hq := (hinv (n, c) hmem).1
    rw [hq] at hm
    obtain ⟨kw', hkw', rfl⟩ := List.mem_map.mp hm
    have hname' : clusterName kw' = n := by
      have := List.of_mem_filter hkw'
      simpa using this
    show lowerStr kw'.query = lowerStr kw.query
    by_cases h2 : 2 ≤ (sigWords kw'.query).length
    · exact absurd (hname'.trans hn) (clusterName_ne_branch kw kw' hlt h2)
    · have hlt' := clusterName_lt2 kw' (by omega)
      rw [← hlt', hname', hn]

/-- First keyword of the C4 witness: two significant words. -/
def c4aKw1 : Keyword :=
  { query := "running shoes", page := "", position := 1, impressions := 0, clicks := 0 }

/-- Second keyword of the C4 witness: same word set, different order and
case. -/
def c4aKw2 : Keyword :=
  { query := "SHOES running", page := "", position := 2, impressions := 0, clicks := 0 }

/-- A keyword with a single significant word (`the` is a stop word). -/
def c4bKw : Keyword :=
  { query := "the blue", page := "", position := 1, impressions := 0, clicks := 0 }

/-- The cluster entry built for `c4bKw`. -/
def c4bCluster : ClusterData :=
  { queries := [{ query := "the blue", impressions := 0, clicks := 0, position := 1 }],
    total_impressions := 0, total_clicks := 0, best_position := 1, pages := [] }

/-- Witness for C4 at concrete keywords, discharging every hypothesis. -/
theorem cluster_keywords_name_spec_witness :
    clusterName c4aKw1 = clusterName c4aKw2 ∧
    clusterName c4bKw = lowerStr c4bKw.query ∧
    lowerStr ("the blue" : String) = lowerStr c4bKw.query := by
  have e1 : sigWords c4aKw1.query = ["running", "shoes"] := by decide
  have e2 : sigWords c4aKw2.query = ["running", "shoes"] := by decide
  have h1 := cluster_keywords_name_spec.1 c4aKw1 c4aKw2
    (fun w => by rw [e1, e2]) (by rw [e1]; norm_num)
  have h2 := cluster_keywords_name_spec.2 [c4bKw] c4bKw "the blue" c4bCluster
    { query := "the blue", impressions := 0, clicks := 0, position := 1 } (by decide)
  exact ⟨h1, h2.1, h2.2 (by decide) (by decide) (by decide)⟩

end GscOpps
